import Mathlib

/-
  Verification of the cmt rigging runtime solvers (RBF pose interpolator,
  linear-regression solver and two-bone IK) against their natural-language
  specification.  Real arithmetic models the C++ double/float arithmetic;
  division by zero follows Lean's junk-value convention where the C++ would
  produce inf/NaN, and each such spot is noted next to its definition.
-/

noncomputable section

namespace CMT

open Matrix

/-! ## Radial basis function kernels (linearRegressionSolver.h)

The kernel structs take a radius in their constructor; `Gaussian`, `ThinPlate`
and `BeckertWendlandC2Basis` floor a non-positive radius to 0.001, the two
multiquadric kernels store the radius unchanged. -/

/-- Radius floor `r = radius > 0.0 ? radius : 0.001` used by the Gaussian,
thin-plate and Wendland C2 constructors. -/
def rbfRadiusFloor (radius : ℝ) : ℝ :=
  if radius > 0 then radius else 0.001

/-- Gaussian kernel: constructor floors the radius and scales it by the
falloff constant 0.4; the call operator returns `exp(-x² / (2 r²))`. -/
def Gaussian (radius x : ℝ) : ℝ :=
  let r := rbfRadiusFloor radius * 0.4
  Real.exp (-(x * x) / (2 * r * r))

/-- Thin-plate kernel: `v = x / r`; returns `v² ln v` for `v > 0`, else `v`. -/
def ThinPlate (radius x : ℝ) : ℝ :=
  let r := rbfRadiusFloor radius
  let v := x / r
  if v > 0 then v * v * Real.log v else v

/-- Multiquadric biharmonic kernel `sqrt(x² + r²)`; no radius floor. -/
def MultiQuadraticBiharmonic (radius x : ℝ) : ℝ :=
  Real.sqrt (x * x + radius * radius)

/-- Inverse multiquadric biharmonic kernel `1 / sqrt(x² + r²)`; no radius
floor, so `x = r = 0` divides by zero (inf in the C++, junk 0 here). -/
def InverseMultiQuadraticBiharmonic (radius x : ℝ) : ℝ :=
  1 / Real.sqrt (x * x + radius * radius)

/-- Beckert-Wendland C2 kernel: `v = x / r`, `(1-v)⁴` clamped at 0 below,
times `4v + 1`; compact support beyond the (floored) radius. -/
def BeckertWendlandC2Basis (radius x : ℝ) : ℝ :=
  let r := rbfRadiusFloor radius
  let v := x / r
  let first := if 1 - v > 0 then (1 - v) ^ 4 else 0
  let second := 4 * v + 1
  first * second

/-- One entry of `applyRbf`'s switch on the kernel tag (a C++ `short`);
case 0 and the default leave the value unchanged. -/
def applyRbfEntry (rbf : ℤ) (radius x : ℝ) : ℝ :=
  if rbf = 0 then x
  else if rbf = 1 then Gaussian radius x
  else if rbf = 2 then ThinPlate radius x
  else if rbf = 3 then MultiQuadraticBiharmonic radius x
  else if rbf = 4 then InverseMultiQuadraticBiharmonic radius x
  else if rbf = 5 then BeckertWendlandC2Basis radius x
  else x

/-- The template `applyRbf` maps the selected kernel over every entry of an
Eigen matrix expression; modelled on the entry list. -/
def applyRbf (rbf : ℤ) (radius : ℝ) (m : List ℝ) : List ℝ :=
  m.map (applyRbfEntry rbf radius)

theorem rbfRadiusFloor_pos (radius : ℝ) : 0 < rbfRadiusFloor radius := by
  unfold rbfRadiusFloor
  split_ifs with h
  · exact h
  · norm_num

theorem Gaussian_pos (radius x : ℝ) : 0 < Gaussian radius x :=
  Real.exp_pos _

theorem MultiQuadraticBiharmonic_nonneg (radius x : ℝ) :
    0 ≤ MultiQuadraticBiharmonic radius x :=
  Real.sqrt_nonneg _

theorem InverseMultiQuadraticBiharmonic_pos (radius x : ℝ)
    (h : x ≠ 0 ∨ radius ≠ 0) : 0 < InverseMultiQuadraticBiharmonic radius x := by
  unfold InverseMultiQuadraticBiharmonic
  have hpos : 0 < x * x + radius * radius := by
    rcases h with h | h
    · have := mul_self_nonneg radius
      nlinarith [mul_self_pos.mpr h]
    · have := mul_self_nonneg x
      nlinarith [mul_self_pos.mpr h]
  positivity

theorem BeckertWendlandC2Basis_nonneg (radius x : ℝ) (hx : 0 ≤ x) :
    0 ≤ BeckertWendlandC2Basis radius x := by
  have hv : 0 ≤ x / rbfRadiusFloor radius :=
    div_nonneg hx (rbfRadiusFloor_pos radius).le
  simp only [BeckertWendlandC2Basis]
  split_ifs with h
  · have h4 : 0 ≤ (1 - x / rbfRadiusFloor radius) ^ 4 := by positivity
    nlinarith
  · nlinarith

theorem ThinPlate_neg_inside (radius x : ℝ) (hx : 0 < x)
    (hxr : x < rbfRadiusFloor radius) : ThinPlate radius x < 0 := by
  unfold ThinPlate
  have hr := rbfRadiusFloor_pos radius
  have hv : 0 < x / rbfRadiusFloor radius := div_pos hx hr
  have hv1 : x / rbfRadiusFloor radius < 1 := (div_lt_one hr).mpr hxr
  simp only [hv, if_pos]
  have hlog : Real.log (x / rbfRadiusFloor radius) < 0 := Real.log_neg hv hv1
  exact mul_neg_of_pos_of_neg (mul_pos hv hv) hlog

/-- C2: the claim as frozen says every kernel in the family returns a
non-negative weight and every kernel applies the 0.001 radius floor.  The
thin-plate kernel refutes it: `ThinPlate 1 (1/2) = (1/4)·ln(1/2) < 0`. -/
theorem rbf_nonneg_counterexample : ThinPlate 1 (1 / 2) < 0 := by
  have h := ThinPlate_neg_inside 1 (1 / 2) (by norm_num)
  apply h
  unfold rbfRadiusFloor
  norm_num

/-- C2 (amended): for distances `x ≥ 0` and radii `r ≥ 0`, the Gaussian,
multiquadric, inverse-multiquadric (away from `x = r = 0`) and Wendland C2
kernels return non-negative weights; the thin-plate kernel is negative for
`0 < x < r`; and the radius floor is positive but only applied by Gaussian,
thin-plate and Wendland C2. -/
theorem rbf_kernel_signs (x r : ℝ) (hx : 0 ≤ x) (hr : 0 ≤ r) :
    0 ≤ Gaussian r x ∧
    0 ≤ MultiQuadraticBiharmonic r x ∧
    0 ≤ BeckertWendlandC2Basis r x ∧
    ((x ≠ 0 ∨ r ≠ 0) → 0 < InverseMultiQuadraticBiharmonic r x) ∧
    (0 < x → x < rbfRadiusFloor r → ThinPlate r x < 0) ∧
    0 < rbfRadiusFloor r :=
  ⟨(Gaussian_pos r x).le, MultiQuadraticBiharmonic_nonneg r x,
    BeckertWendlandC2Basis_nonneg r x hx,
    InverseMultiQuadraticBiharmonic_pos r x,
    fun h1 h2 => ThinPlate_neg_inside r x h1 h2,
    rbfRadiusFloor_pos r⟩

/-- C2 witness at `x = 1`, `r = 1`. -/
theorem rbf_kernel_signs_witness :
    (0 : ℝ) ≤ 1 ∧ 0 ≤ Gaussian 1 1 :=
  ⟨zero_le_one, (rbf_kernel_signs 1 1 zero_le_one zero_le_one).1⟩

/-- C9: the claim asserts the inverse-multiquadric kernel is strictly
positive for every finite input; at `x = 0`, `r = 0` the kernel divides by
zero (`1/sqrt 0`, inf in C++, junk 0 here), refuting strict positivity. -/
theorem rbf_boundary_counterexample :
    ¬ (0 < InverseMultiQuadraticBiharmonic 0 0) := by
  unfold InverseMultiQuadraticBiharmonic
  norm_num

/-- C9 (amended): Wendland C2 is exactly 0 for every distance at or beyond
the (floored) radius; Gaussian is strictly positive everywhere;
inverse-multiquadric is strictly positive whenever not both arguments are
zero; and kernel choice 0 leaves the distance data unchanged. -/
theorem rbf_kernel_boundary :
    (∀ radius x : ℝ, rbfRadiusFloor radius ≤ x →
      BeckertWendlandC2Basis radius x = 0) ∧
    (∀ radius x : ℝ, 0 < Gaussian radius x) ∧
    (∀ r x : ℝ, (x ≠ 0 ∨ r ≠ 0) → 0 < InverseMultiQuadraticBiharmonic r x) ∧
    (∀ (radius : ℝ) (m : List ℝ), applyRbf 0 radius m = m) := by
  refine ⟨?_, Gaussian_pos, InverseMultiQuadraticBiharmonic_pos, ?_⟩
  · intro radius x hxr
    unfold BeckertWendlandC2Basis
    have hr := rbfRadiusFloor_pos radius
    have hv : 1 ≤ x / rbfRadiusFloor radius := (one_le_div hr).mpr hxr
    have : ¬ (1 - x / rbfRadiusFloor radius > 0) := by linarith
    simp [this]
  · intro radius m
    unfold applyRbf applyRbfEntry
    simp

/-- C9 witness: Wendland C2 vanishes at `x = 1` with radius 1. -/
theorem rbf_kernel_boundary_witness :
    rbfRadiusFloor 1 ≤ 1 ∧ BeckertWendlandC2Basis 1 1 = 0 := by
  have hfloor : rbfRadiusFloor 1 ≤ 1 := by unfold rbfRadiusFloor; norm_num
  exact ⟨hfloor, rbf_kernel_boundary.1 1 1 hfloor⟩

/-! ## Quaternions (Maya MQuaternion, as used by linearRegressionSolver.cpp)

Components `(x, y, z, w)` with `w` the real part.  The Maya operations used
by the solver are modelled by their API contract: Hamilton product,
conjugate, `inverse() = conjugate / norm²`, `normalizeIt()` divides by the
length (length 0 gives the junk zero quaternion where the C++ produces
NaN). -/

@[ext]
structure Quat where
  x : ℝ
  y : ℝ
  z : ℝ
  w : ℝ

namespace Quat

/-- Squared norm `x² + y² + z² + w²`. -/
def normSq (q : Quat) : ℝ := q.x ^ 2 + q.y ^ 2 + q.z ^ 2 + q.w ^ 2

/-- Hamilton product.  Maya composes rotations with the reversed operand
order; every property proved here (norm multiplicativity, inverse and
associativity laws, axis fixing) holds under either convention. -/
def mul (p q : Quat) : Quat :=
  ⟨p.w * q.x + p.x * q.w + p.y * q.z - p.z * q.y,
   p.w * q.y - p.x * q.z + p.y * q.w + p.z * q.x,
   p.w * q.z + p.x * q.y - p.y * q.x + p.z * q.w,
   p.w * q.w - p.x * q.x - p.y * q.y - p.z * q.z⟩

/-- Conjugate. -/
def conj (q : Quat) : Quat := ⟨-q.x, -q.y, -q.z, q.w⟩

/-- Scalar multiple of every component. -/
def scale (c : ℝ) (q : Quat) : Quat := ⟨c * q.x, c * q.y, c * q.z, c * q.w⟩

/-- Maya `MQuaternion::inverse()`: conjugate divided by the squared norm. -/
def inverse (q : Quat) : Quat := scale (1 / normSq q) (conj q)

/-- Maya `MQuaternion::normalizeIt()`: divide by the length. -/
def normalize (q : Quat) : Quat := scale (1 / Real.sqrt (normSq q)) q

/-- Negated quaternion (the antipodal representative of the same rotation). -/
def neg (q : Quat) : Quat := ⟨-q.x, -q.y, -q.z, -q.w⟩

/-- Identity quaternion. -/
def one : Quat := ⟨0, 0, 0, 1⟩

theorem normSq_mul (p q : Quat) : normSq (mul p q) = normSq p * normSq q := by
  simp only [normSq, mul]
  ring

theorem normSq_nonneg (q : Quat) : 0 ≤ normSq q := by
  simp only [normSq]
  positivity

end Quat

/-- Four real squares summing to zero all vanish. -/
theorem sum_four_sq_eq_zero (a b c d : ℝ)
    (h : a ^ 2 + b ^ 2 + c ^ 2 + d ^ 2 = 0) :
    a = 0 ∧ b = 0 ∧ c = 0 ∧ d = 0 := by
  have ha := sq_nonneg a
  have hb := sq_nonneg b
  have hc := sq_nonneg c
  have hd := sq_nonneg d
  have ea : a ^ 2 = 0 := by linarith
  have eb : b ^ 2 = 0 := by linarith
  have ec : c ^ 2 = 0 := by linarith
  have ed : d ^ 2 = 0 := by linarith
  exact ⟨sq_eq_zero_iff.mp ea, sq_eq_zero_iff.mp eb,
    sq_eq_zero_iff.mp ec, sq_eq_zero_iff.mp ed⟩

namespace Quat

theorem normSq_eq_zero_iff (q : Quat) : normSq q = 0 ↔ q = ⟨0, 0, 0, 0⟩ := by
  constructor
  · intro h
    simp only [normSq] at h
    obtain ⟨hx, hy, hz, hw⟩ := sum_four_sq_eq_zero _ _ _ _ h
    ext <;> simp [hx, hy, hz, hw]
  · intro h
    subst h
    simp [normSq]

theorem mul_zero_left (q : Quat) : mul ⟨0, 0, 0, 0⟩ q = ⟨0, 0, 0, 0⟩ := by
  simp [mul]

theorem scale_scale (c d : ℝ) (q : Quat) :
    scale c (scale d q) = scale (c * d) q := by
  simp only [scale]
  ext <;> ring

theorem normSq_scale (c : ℝ) (q : Quat) :
    normSq (scale c q) = c ^ 2 * normSq q := by
  simp only [normSq, scale]
  ring

/-- Cancellation `t · (t⁻¹ · q) = q` for a unit quaternion `t`. -/
theorem mul_inverse_mul_cancel (t q : Quat) (ht : normSq t = 1) :
    mul t (mul (inverse t) q) = q := by
  have ht' : t.x ^ 2 + t.y ^ 2 + t.z ^ 2 + t.w ^ 2 = 1 := ht
  simp only [inverse, ht, conj, scale, mul]
  ext
  · show _ = q.x
    field_simp
    linear_combination q.x * ht'
  · show _ = q.y
    field_simp
    linear_combination q.y * ht'
  · show _ = q.z
    field_simp
    linear_combination q.z * ht'
  · show _ = q.w
    field_simp
    linear_combination q.w * ht'

end Quat

/-! ## Solver quaternion functions (linearRegressionSolver.cpp lines 211-233
and the inline `quaternionDot` of the header) -/

/-- Clamped four-component dot product (header lines 276-285): the raw dot
product, clamped into `[-1, 1]`. -/
def quaternionDot (q1 q2 : Quat) : ℝ :=
  let dotValue := q1.x * q2.x + q1.y * q2.y + q1.z * q2.z + q1.w * q2.w
  if dotValue < -1 then -1 else if dotValue > 1 then 1 else dotValue

/-- Quaternion distance (lines 211-214): `acos(2 dot² - 1) / π`. -/
def quaternionDistance (q1 q2 : Quat) : ℝ :=
  Real.arccos (2 * quaternionDot q1 q2 * quaternionDot q1 q2 - 1) / Real.pi

/-- Swing/twist decomposition about the fixed X axis (lines 225-233): the
twist keeps `x` and `w`, zeroes `y` and `z` and renormalizes; the swing is
`twist⁻¹ · q`.  Returned as `(swing, twist)` matching the output-parameter
order of the C++. -/
def decomposeSwingTwist (q : Quat) : Quat × Quat :=
  let twist := Quat.normalize ⟨q.x, 0, 0, q.w⟩
  (Quat.mul (Quat.inverse twist) q, twist)

/-- Swing and twist distances between two rotations (lines 216-223). -/
def swingTwistDistance (q1 q2 : Quat) : ℝ × ℝ :=
  (quaternionDistance (decomposeSwingTwist q1).1 (decomposeSwingTwist q2).1,
   quaternionDistance (decomposeSwingTwist q1).2 (decomposeSwingTwist q2).2)

theorem quaternionDot_mem (q1 q2 : Quat) :
    -1 ≤ quaternionDot q1 q2 ∧ quaternionDot q1 q2 ≤ 1 := by
  simp only [quaternionDot]
  split_ifs with h1 h2 <;> constructor <;> linarith

theorem quaternionDot_comm (q1 q2 : Quat) :
    quaternionDot q1 q2 = quaternionDot q2 q1 := by
  simp only [quaternionDot]
  ring_nf

/-- C5: for a unit quaternion whose twist components are not both zero, the
decomposition satisfies `twist · swing = q` exactly, and the twist has no
imaginary components off the X axis. -/
theorem decomposeSwingTwist_recompose (q : Quat) (hq : Quat.normSq q = 1)
    (hxw : q.x ^ 2 + q.w ^ 2 ≠ 0) :
    Quat.mul (decomposeSwingTwist q).2 (decomposeSwingTwist q).1 = q ∧
    (decomposeSwingTwist q).2.y = 0 ∧ (decomposeSwingTwist q).2.z = 0 := by
  have hpre : Quat.normSq ⟨q.x, 0, 0, q.w⟩ = q.x ^ 2 + q.w ^ 2 := by
    simp [Quat.normSq]
  have hpos : 0 < q.x ^ 2 + q.w ^ 2 := by
    rcases lt_or_eq_of_le (by positivity : (0:ℝ) ≤ q.x ^ 2 + q.w ^ 2) with h | h
    · exact h
    · exact absurd h.symm hxw
  have hs : Real.sqrt (q.x ^ 2 + q.w ^ 2) ≠ 0 := by
    positivity
  have htwist : Quat.normSq (decomposeSwingTwist q).2 = 1 := by
    simp only [decomposeSwingTwist, Quat.normalize, Quat.normSq_scale, hpre]
    rw [one_div, inv_pow, Real.sq_sqrt hpos.le]
    field_simp
  refine ⟨?_, ?_, ?_⟩
  · exact Quat.mul_inverse_mul_cancel _ q htwist
  · simp [decomposeSwingTwist, Quat.normalize, Quat.scale]
  · simp [decomposeSwingTwist, Quat.normalize, Quat.scale]

/-- Lagrange four-square identity gives the Cauchy-Schwarz bound for the
raw quaternion dot product of unit quaternions. -/
theorem rawDot_sq_le_one (q1 q2 : Quat) (h1 : Quat.normSq q1 = 1)
    (h2 : Quat.normSq q2 = 1) :
    (q1.x * q2.x + q1.y * q2.y + q1.z * q2.z + q1.w * q2.w) ^ 2 ≤ 1 := by
  have key : (q1.x * q2.x + q1.y * q2.y + q1.z * q2.z + q1.w * q2.w) ^ 2
      + ((q1.x * q2.y - q1.y * q2.x) ^ 2 + (q1.x * q2.z - q1.z * q2.x) ^ 2
        + (q1.x * q2.w - q1.w * q2.x) ^ 2 + (q1.y * q2.z - q1.z * q2.y) ^ 2
        + (q1.y * q2.w - q1.w * q2.y) ^ 2 + (q1.z * q2.w - q1.w * q2.z) ^ 2)
      = Quat.normSq q1 * Quat.normSq q2 := by
    simp only [Quat.normSq]
    ring
  nlinarith [sq_nonneg (q1.x * q2.y - q1.y * q2.x),
    sq_nonneg (q1.x * q2.z - q1.z * q2.x), sq_nonneg (q1.x * q2.w - q1.w * q2.x),
    sq_nonneg (q1.y * q2.z - q1.z * q2.y), sq_nonneg (q1.y * q2.w - q1.w * q2.y),
    sq_nonneg (q1.z * q2.w - q1.w * q2.z)]

/-- For unit quaternions the clamp inside `quaternionDot` never fires. -/
theorem quaternionDot_of_unit (q1 q2 : Quat) (h1 : Quat.normSq q1 = 1)
    (h2 : Quat.normSq q2 = 1) :
    quaternionDot q1 q2
      = q1.x * q2.x + q1.y * q2.y + q1.z * q2.z + q1.w * q2.w := by
  have hsq := rawDot_sq_le_one q1 q2 h1 h2
  have hub : q1.x * q2.x + q1.y * q2.y + q1.z * q2.z + q1.w * q2.w ≤ 1 := by
    nlinarith
  have hlb : -1 ≤ q1.x * q2.x + q1.y * q2.y + q1.z * q2.z + q1.w * q2.w := by
    nlinarith
  simp only [quaternionDot]
  split_ifs with ha hb
  · linarith
  · linarith
  · rfl

/-- Unit quaternions with dot product 1 coincide. -/
theorem unit_dot_one (q1 q2 : Quat) (h1 : Quat.normSq q1 = 1)
    (h2 : Quat.normSq q2 = 1)
    (hone : q1.x * q2.x + q1.y * q2.y + q1.z * q2.z + q1.w * q2.w = 1) :
    q1 = q2 := by
  have h1' : q1.x ^ 2 + q1.y ^ 2 + q1.z ^ 2 + q1.w ^ 2 = 1 := h1
  have h2' : q2.x ^ 2 + q2.y ^ 2 + q2.z ^ 2 + q2.w ^ 2 = 1 := h2
  have hsum : (q1.x - q2.x) ^ 2 + (q1.y - q2.y) ^ 2
      + (q1.z - q2.z) ^ 2 + (q1.w - q2.w) ^ 2 = 0 := by
    linear_combination h1' + h2' - 2 * hone
  obtain ⟨ea, eb, ec, ed⟩ := sum_four_sq_eq_zero _ _ _ _ hsum
  ext
  · linarith
  · linarith
  · linarith
  · linarith

/-- Unit quaternions with dot product -1 are antipodal. -/
theorem unit_dot_neg_one (q1 q2 : Quat) (h1 : Quat.normSq q1 = 1)
    (h2 : Quat.normSq q2 = 1)
    (hneg : q1.x * q2.x + q1.y * q2.y + q1.z * q2.z + q1.w * q2.w = -1) :
    q1 = Quat.neg q2 := by
  have h1' : q1.x ^ 2 + q1.y ^ 2 + q1.z ^ 2 + q1.w ^ 2 = 1 := h1
  have h2' : q2.x ^ 2 + q2.y ^ 2 + q2.z ^ 2 + q2.w ^ 2 = 1 := h2
  have hsum : (q1.x + q2.x) ^ 2 + (q1.y + q2.y) ^ 2
      + (q1.z + q2.z) ^ 2 + (q1.w + q2.w) ^ 2 = 0 := by
    linear_combination h1' + h2' + 2 * hneg
  obtain ⟨ea, eb, ec, ed⟩ := sum_four_sq_eq_zero _ _ _ _ hsum
  ext
  · show q1.x = -q2.x
    linarith
  · show q1.y = -q2.y
    linarith
  · show q1.z = -q2.z
    linarith
  · show q1.w = -q2.w
    linarith

/-- C6: for unit quaternions the distance is symmetric, lies in `[0, 1]`,
and vanishes exactly on the antipodal pair `q1 = ±q2`. -/
theorem quaternionDistance_metric (q1 q2 : Quat) (h1 : Quat.normSq q1 = 1)
    (h2 : Quat.normSq q2 = 1) :
    quaternionDistance q1 q2 = quaternionDistance q2 q1 ∧
    0 ≤ quaternionDistance q1 q2 ∧ quaternionDistance q1 q2 ≤ 1 ∧
    (quaternionDistance q1 q2 = 0 ↔ (q1 = q2 ∨ q1 = Quat.neg q2)) := by
  have hpi := Real.pi_pos
  refine ⟨?_, ?_, ?_, ?_⟩
  · simp only [quaternionDistance, quaternionDot_comm]
  · exact div_nonneg (Real.arccos_nonneg _) hpi.le
  · exact (div_le_one hpi).mpr (Real.arccos_le_pi _)
  · have hc := quaternionDot_of_unit q1 q2 h1 h2
    have hsq := rawDot_sq_le_one q1 q2 h1 h2
    constructor
    · intro h0
      have harc : Real.arccos
          (2 * quaternionDot q1 q2 * quaternionDot q1 q2 - 1) = 0 := by
        rcases (div_eq_zero_iff).mp h0 with h | h
        · exact h
        · exact absurd h hpi.ne'
      have hge : 1 ≤ 2 * quaternionDot q1 q2 * quaternionDot q1 q2 - 1 :=
        Real.arccos_eq_zero.mp harc
      rw [hc] at hge
      have hsq1 : (q1.x * q2.x + q1.y * q2.y + q1.z * q2.z + q1.w * q2.w) ^ 2
          = 1 := by
        refine le_antisymm hsq ?_
        nlinarith
      have hfac : (q1.x * q2.x + q1.y * q2.y + q1.z * q2.z + q1.w * q2.w - 1)
          * (q1.x * q2.x + q1.y * q2.y + q1.z * q2.z + q1.w * q2.w + 1) = 0 := by
        linear_combination hsq1
      rcases mul_eq_zero.mp hfac with h | h
      · exact Or.inl (unit_dot_one q1 q2 h1 h2 (by linarith))
      · exact Or.inr (unit_dot_neg_one q1 q2 h1 h2 (by linarith))
    · intro h
      have hdot : quaternionDot q1 q2 * quaternionDot q1 q2 = 1 := by
        rcases h with h | h
        · subst h
          rw [hc]
          have h1' : q1.x ^ 2 + q1.y ^ 2 + q1.z ^ 2 + q1.w ^ 2 = 1 := h1
          nlinarith
        · subst h
          rw [hc]
          have h2' : q2.x ^ 2 + q2.y ^ 2 + q2.z ^ 2 + q2.w ^ 2 = 1 := h2
          simp only [Quat.neg]
          nlinarith
      simp only [quaternionDistance]
      have harg : 2 * quaternionDot q1 q2 * quaternionDot q1 q2 - 1 = 1 := by
        nlinarith
      rw [harg, Real.arccos_one, zero_div]

/-- C6 witness at a pair of identical unit quaternions. -/
theorem quaternionDistance_metric_witness :
    Quat.normSq ⟨0, 0, 0, 1⟩ = 1 ∧
    quaternionDistance ⟨0, 0, 0, 1⟩ ⟨0, 0, 0, 1⟩ = 0 := by
  have h1 : Quat.normSq ⟨0, 0, 0, 1⟩ = 1 := by simp [Quat.normSq]
  exact ⟨h1, ((quaternionDistance_metric _ _ h1 h1).2.2.2).mpr (Or.inl rfl)⟩

/-- C7: the claim asserts a stable fallback (identity twist) for rotations
whose twist components vanish; at the 180-degree rotation about Y the code
instead renormalizes the zero quaternion: the twist collapses to the zero
quaternion (NaN in the C++ floats) and the recomposition invariant fails. -/
theorem decomposeSwingTwist_degenerate_counterexample :
    (decomposeSwingTwist ⟨0, 1, 0, 0⟩).2 = ⟨0, 0, 0, 0⟩ ∧
    Quat.mul (decomposeSwingTwist ⟨0, 1, 0, 0⟩).2
      (decomposeSwingTwist ⟨0, 1, 0, 0⟩).1 ≠ ⟨0, 1, 0, 0⟩ := by
  have htwist : (decomposeSwingTwist ⟨0, 1, 0, 0⟩).2 = ⟨0, 0, 0, 0⟩ := by
    simp [decomposeSwingTwist, Quat.normalize, Quat.scale, Quat.normSq]
  refine ⟨htwist, ?_⟩
  rw [htwist, Quat.mul_zero_left]
  intro h
  have := congrArg Quat.y h
  simp at this

/-- C7 (amended): for a unit quaternion with both twist components zero the
pre-normalization twist is exactly the zero quaternion, its renormalization
divides by zero (the model's junk zero, NaN in the C++), and no identity
fallback exists: the returned twist is the zero quaternion and
`twist · swing` cannot reproduce `q`. -/
theorem decomposeSwingTwist_degenerate (q : Quat) (hx : q.x = 0)
    (hw : q.w = 0) (hq : Quat.normSq q = 1) :
    Quat.normSq ⟨q.x, 0, 0, q.w⟩ = 0 ∧
    (decomposeSwingTwist q).2 = ⟨0, 0, 0, 0⟩ ∧
    Quat.mul (decomposeSwingTwist q).2 (decomposeSwingTwist q).1 ≠ q := by
  have hpre : Quat.normSq ⟨q.x, 0, 0, q.w⟩ = 0 := by
    simp [Quat.normSq, hx, hw]
  have htwist : (decomposeSwingTwist q).2 = ⟨0, 0, 0, 0⟩ := by
    simp [decomposeSwingTwist, Quat.normalize, Quat.scale, Quat.normSq, hx, hw]
  refine ⟨hpre, htwist, ?_⟩
  rw [htwist, Quat.mul_zero_left]
  intro h
  rw [← h] at hq
  simp [Quat.normSq] at hq

/-- C7 witness at the 180-degree rotation about the Y axis. -/
theorem decomposeSwingTwist_degenerate_witness :
    Quat.normSq ⟨0, 1, 0, 0⟩ = 1 ∧
    (decomposeSwingTwist ⟨0, 1, 0, 0⟩).2 = ⟨0, 0, 0, 0⟩ := by
  have h1 : Quat.normSq ⟨0, 1, 0, 0⟩ = 1 := by simp [Quat.normSq]
  exact ⟨h1, (decomposeSwingTwist_degenerate ⟨0, 1, 0, 0⟩ rfl rfl h1).2.1⟩

/-- C5 witness at the identity rotation. -/
theorem decomposeSwingTwist_recompose_witness :
    Quat.normSq ⟨0, 0, 0, 1⟩ = 1 ∧
    Quat.mul (decomposeSwingTwist ⟨0, 0, 0, 1⟩).2
      (decomposeSwingTwist ⟨0, 0, 0, 1⟩).1 = ⟨0, 0, 0, 1⟩ := by
  have h1 : Quat.normSq ⟨0, 0, 0, 1⟩ = 1 := by simp [Quat.normSq]
  have h2 : (⟨0, 0, 0, 1⟩ : Quat).x ^ 2 + (⟨0, 0, 0, 1⟩ : Quat).w ^ 2 ≠ 0 := by
    norm_num
  exact ⟨h1, (decomposeSwingTwist_recompose ⟨0, 0, 0, 1⟩ h1 h2).1⟩

/-! ## Per-sample radius computation (setFeatures lines 72-119)

`sampleRadius_` starts at all-ones; the triple loop over `(s1, s2, i)`
computes the (mode-masked) swing and twist distances between the `i`-th
rotation features of samples `s1` and `s2`, and replaces `sampleRadius_[s1]`
with a distance that is both above the 1e-6 floor and below the current
entry, swing checked before twist. -/

/-- Rotation-distance mode of a solver bucket (header line 289). -/
inductive SolverSpace where
  | Swing : SolverSpace
  | Twist : SolverSpace
  | SwingTwist : SolverSpace
deriving DecidableEq

/-- One iteration of the inner radius loop for a fixed `s1` (lines 79-105):
mask the distances by the solver space, then conditionally shrink the
current radius, swing first, twist second. -/
def sampleRadiusUpdate (space : SolverSpace) (q1 q2 : Quat) (cur : ℝ) : ℝ :=
  let st := swingTwistDistance q1 q2
  let swingDistance := if space = SolverSpace.Twist then 0 else st.1
  let twistDistance := if space = SolverSpace.Swing then 0 else st.2
  let cur1 := if swingDistance > 0.000001 ∧ swingDistance < cur
    then swingDistance else cur
  if twistDistance > 0.000001 ∧ twistDistance < cur1 then twistDistance
  else cur1

/-- `sampleRadius_[s1]` after the loops over `s2` and `i`: fold of the
update over every other sample's rotation features, starting from 1. -/
def sampleRadiusEntry (space : SolverSpace) (qs1 : List Quat)
    (samples : List (List Quat)) : ℝ :=
  samples.foldl
    (fun cur qs2 =>
      (List.zip qs1 qs2).foldl (fun c p => sampleRadiusUpdate space p.1 p.2 c) cur)
    1

/-- The whole `sampleRadius_` vector, one entry per sample. -/
def sampleRadiusVec (space : SolverSpace) (samples : List (List Quat)) :
    List ℝ :=
  samples.map (fun qs1 => sampleRadiusEntry space qs1 samples)

theorem sampleRadiusUpdate_mem (space : SolverSpace) (q1 q2 : Quat)
    (cur : ℝ) (h0 : 0 < cur) (h1 : cur ≤ 1) :
    0 < sampleRadiusUpdate space q1 q2 cur ∧
    sampleRadiusUpdate space q1 q2 cur ≤ 1 := by
  simp only [sampleRadiusUpdate]
  split_ifs with hsw htw htw <;> constructor <;>
    first
      | linarith
      | (rcases hsw with ⟨hsw1, hsw2⟩; linarith)
      | (rcases htw with ⟨htw1, htw2⟩; linarith)

theorem foldl_radius_mem (space : SolverSpace) (qs1 : List Quat)
    (ps : List (Quat × Quat)) (cur : ℝ) (h0 : 0 < cur) (h1 : cur ≤ 1) :
    0 < ps.foldl (fun c p => sampleRadiusUpdate space p.1 p.2 c) cur ∧
    ps.foldl (fun c p => sampleRadiusUpdate space p.1 p.2 c) cur ≤ 1 := by
  induction ps generalizing cur with
  | nil => exact ⟨h0, h1⟩
  | cons p ps ih =>
    simp only [List.foldl_cons]
    obtain ⟨hs0, hs1⟩ := sampleRadiusUpdate_mem space p.1 p.2 cur h0 h1
    exact ih _ hs0 hs1

/-- C10: every entry of the per-sample radius vector built by `setFeatures`
lies in the half-open interval `(0, 1]`. -/
theorem sampleRadius_mem_unit_interval (space : SolverSpace)
    (samples : List (List Quat)) :
    ∀ r ∈ sampleRadiusVec space samples, 0 < r ∧ r ≤ 1 := by
  intro r hr
  simp only [sampleRadiusVec, List.mem_map] at hr
  obtain ⟨qs1, _, rfl⟩ := hr
  simp only [sampleRadiusEntry]
  have key : ∀ (ss : List (List Quat)) (cur : ℝ), 0 < cur → cur ≤ 1 →
      0 < ss.foldl (fun cur qs2 => (List.zip qs1 qs2).foldl
        (fun c p => sampleRadiusUpdate space p.1 p.2 c) cur) cur ∧
      ss.foldl (fun cur qs2 => (List.zip qs1 qs2).foldl
        (fun c p => sampleRadiusUpdate space p.1 p.2 c) cur) cur ≤ 1 := by
    intro ss
    induction ss with
    | nil => exact fun cur h0 h1 => ⟨h0, h1⟩
    | cons qs2 ss ih =>
      intro cur h0 h1
      simp only [List.foldl_cons]
      obtain ⟨hs0, hs1⟩ := foldl_radius_mem space qs1 (List.zip qs1 qs2) cur h0 h1
      exact ih _ hs0 hs1
  exact key samples 1 one_pos le_rfl

/-- C10 witness: one sample with one identity rotation feature. -/
theorem sampleRadius_mem_unit_interval_witness :
    sampleRadiusEntry SolverSpace.SwingTwist [⟨0, 0, 0, 1⟩] [[⟨0, 0, 0, 1⟩]]
      ∈ sampleRadiusVec SolverSpace.SwingTwist [[⟨0, 0, 0, 1⟩]] ∧
    0 < sampleRadiusEntry SolverSpace.SwingTwist [⟨0, 0, 0, 1⟩]
      [[⟨0, 0, 0, 1⟩]] := by
  have hm : sampleRadiusEntry SolverSpace.SwingTwist [⟨0, 0, 0, 1⟩]
      [[⟨0, 0, 0, 1⟩]]
      ∈ sampleRadiusVec SolverSpace.SwingTwist [[⟨0, 0, 0, 1⟩]] := by
    simp [sampleRadiusVec]
  exact ⟨hm, (sampleRadius_mem_unit_interval SolverSpace.SwingTwist
    [[⟨0, 0, 0, 1⟩]] _ hm).1⟩

/-! ## Linear regression solver, scalar-feature path (setFeatures lines
20-132, solve lines 134-198, pseudoInverse lines 200-209)

Eigen's `JacobiSVD` is an external library call; the pseudo-inverse is
modelled by the source's reconstruction formula applied to SVD factors that
the theorems receive together with the properties Eigen guarantees for them
(the factorization itself and orthogonality of the factors). -/

/-- Per-column feature norms (lines 49-51): Eigen `.col(i).norm()`. -/
def featureNorms {n k : ℕ} (F : Matrix (Fin n) (Fin k) ℝ) (j : Fin k) : ℝ :=
  Real.sqrt (∑ i, F i j ^ 2)

/-- Feature matrix after the in-place column normalization of lines 49-54:
columns with nonzero norm are divided by their norm. -/
def normalizedFeatures {n k : ℕ} (F : Matrix (Fin n) (Fin k) ℝ) :
    Matrix (Fin n) (Fin k) ℝ :=
  Matrix.of fun i j =>
    if featureNorms F j ≠ 0 then F i j / featureNorms F j else F i j

/-- Pairwise distance matrix of lines 56-58: column `i` holds the Euclidean
distances of every normalized sample row to normalized row `i`. -/
def distanceMatrix {n k : ℕ} (F : Matrix (Fin n) (Fin k) ℝ) :
    Matrix (Fin n) (Fin n) ℝ :=
  Matrix.of fun s i =>
    Real.sqrt (∑ c, (normalizedFeatures F s c - normalizedFeatures F i c) ^ 2)

/-- Frobenius norm of the distance matrix (line 61, Eigen `m.norm()`). -/
def distanceNorm {n k : ℕ} (F : Matrix (Fin n) (Fin k) ℝ) : ℝ :=
  Real.sqrt (∑ s, ∑ i, distanceMatrix F s i ^ 2)

/-- Distance matrix normalized by its Frobenius norm with the configured
kernel applied elementwise (lines 62-65). -/
def kernelMatrix {n k : ℕ} (rbf : ℤ) (radius : ℝ)
    (F : Matrix (Fin n) (Fin k) ℝ) : Matrix (Fin n) (Fin n) ℝ :=
  Matrix.of fun s i =>
    applyRbfEntry rbf radius (distanceMatrix F s i / distanceNorm F)

/-- Regularized square system `Mᵀ M + λ I` of lines 126-130 (`r` is the
`cols × cols` matrix with `regularization` on the diagonal). -/
def regressionSystem {n : ℕ} (M : Matrix (Fin n) (Fin n) ℝ) (reg : ℝ) :
    Matrix (Fin n) (Fin n) ℝ :=
  Mᵀ * M + reg • (1 : Matrix (Fin n) (Fin n) ℝ)

/-- Truncation tolerance of `pseudoInverse` (line 202):
`epsilon * max(cols, rows) * |σ(0)|` with `σ(0)` the first (largest)
singular value reported by Eigen. -/
def svdTolerance (eps : ℝ) (n : ℕ) (σ : Fin n → ℝ) : ℝ :=
  eps * n * (if h : 0 < n then |σ ⟨0, h⟩| else 0)

/-- Reconstruction formula of `pseudoInverse` (lines 203-208):
`V · diag(σᵢ⁻¹ if |σᵢ| > tol else 0) · Uᵀ` over the factors produced by the
external `JacobiSVD`. -/
def pseudoInverseFromSVD {n : ℕ} (U : Matrix (Fin n) (Fin n) ℝ)
    (σ : Fin n → ℝ) (V : Matrix (Fin n) (Fin n) ℝ) (eps : ℝ) :
    Matrix (Fin n) (Fin n) ℝ :=
  V * Matrix.diagonal
      (fun i => if svdTolerance eps n σ < |σ i| then (σ i)⁻¹ else 0) * Uᵀ

/-- Coefficient matrix `theta_` of lines 125-131: the system is solved
against the sample identity matrix, `theta = (pinv(MᵀM + λI) · Mᵀ · I)ᵀ`. -/
def thetaMatrix {n : ℕ} (P M : Matrix (Fin n) (Fin n) ℝ) :
    Matrix (Fin n) (Fin n) ℝ :=
  ((P * Mᵀ) * (1 : Matrix (Fin n) (Fin n) ℝ))ᵀ

/-- Query vector rescaled by the stored feature norms (lines 145-150). -/
def normalizedQuery {n k : ℕ} (F : Matrix (Fin n) (Fin k) ℝ)
    (q : Fin k → ℝ) (c : Fin k) : ℝ :=
  if featureNorms F c ≠ 0 then q c / featureNorms F c else q c

/-- Query distance row (lines 144-157): distance of the rescaled query to
every stored normalized sample row, divided by the stored Frobenius norm,
kernel-transformed exactly like the training matrix. -/
def inputDistance {n k : ℕ} (rbf : ℤ) (radius : ℝ)
    (F : Matrix (Fin n) (Fin k) ℝ) (q : Fin k → ℝ) : Fin n → ℝ :=
  fun i => applyRbfEntry rbf radius
    (Real.sqrt (∑ c, (normalizedFeatures F i c - normalizedQuery F q c) ^ 2)
      / distanceNorm F)

/-- Weight vector `output = theta_ * inputDistance` (line 184). -/
def solveWeights {n : ℕ} (theta : Matrix (Fin n) (Fin n) ℝ)
    (d : Fin n → ℝ) : Fin n → ℝ :=
  theta *ᵥ d

/-- Scalar outputs of lines 185-189: dot product of the weight vector with
each column of the output matrix. -/
def solveScalarOutputs {n p : ℕ} (w : Fin n → ℝ)
    (O : Matrix (Fin n) (Fin p) ℝ) : Fin p → ℝ :=
  fun j => w ⬝ᵥ fun i => O i j

/-- Effective sample count of lines 32 and 137:
`featureMatrix_.rows() ? featureMatrix_.rows() : featureQuatMatrix_.size()`. -/
def sampleCount (featureRows quatRows : ℕ) : ℕ :=
  if featureRows ≠ 0 then featureRows else quatRows

/-- setFeatures guard (lines 32-36): with at most one sample `theta_` is
resized to 0×0 (`none` here) and the routine returns before any linear
algebra; otherwise the scalar-path coefficients are built.  `quatSamples`
enters only through the sample count; the rotation-feature columns are not
modelled. -/
def setFeaturesTheta {n k : ℕ} (F : Matrix (Fin n) (Fin k) ℝ)
    (quatSamples : List (List Quat)) (rbf : ℤ) (radius reg eps : ℝ)
    (U V : Matrix (Fin n) (Fin n) ℝ) (σ : Fin n → ℝ) :
    Option (Matrix (Fin n) (Fin n) ℝ) :=
  if sampleCount n quatSamples.length ≤ 1 then none
  else some (thetaMatrix (pseudoInverseFromSVD U σ V eps)
    (kernelMatrix rbf radius F))

/-- solve guard (lines 137-140): with at most one sample the solver returns
the empty vector before touching the outputs; otherwise the weight vector
and the scalar outputs are produced. -/
def solveResult {n k p : ℕ} (F : Matrix (Fin n) (Fin k) ℝ)
    (quatSamples : List (List Quat)) (rbf : ℤ) (radius : ℝ)
    (theta : Matrix (Fin n) (Fin n) ℝ) (O : Matrix (Fin n) (Fin p) ℝ)
    (q : Fin k → ℝ) : Option ((Fin n → ℝ) × (Fin p → ℝ)) :=
  if sampleCount n quatSamples.length ≤ 1 then none
  else
    some (solveWeights theta (inputDistance rbf radius F q),
      solveScalarOutputs (solveWeights theta (inputDistance rbf radius F q)) O)

theorem distanceMatrix_symm {n k : ℕ} (F : Matrix (Fin n) (Fin k) ℝ)
    (s i : Fin n) : distanceMatrix F s i = distanceMatrix F i s := by
  simp only [distanceMatrix, Matrix.of_apply]
  congr 1
  exact Finset.sum_congr rfl fun c _ => by ring

theorem kernelMatrix_symm {n k : ℕ} (rbf : ℤ) (radius : ℝ)
    (F : Matrix (Fin n) (Fin k) ℝ) :
    (kernelMatrix rbf radius F)ᵀ = kernelMatrix rbf radius F := by
  ext s i
  simp only [transpose_apply, kernelMatrix, Matrix.of_apply]
  rw [distanceMatrix_symm]

theorem svdTolerance_nonneg (eps : ℝ) (n : ℕ) (σ : Fin n → ℝ)
    (heps : 0 ≤ eps) : 0 ≤ svdTolerance eps n σ := by
  unfold svdTolerance
  split_ifs with h
  · positivity
  · simp

/-- With every singular value above the truncation tolerance and orthogonal
factors, the reconstructed pseudo-inverse is a left inverse of the factored
matrix. -/
theorem pinv_mul_eq_one {n : ℕ} (A U V : Matrix (Fin n) (Fin n) ℝ)
    (σ : Fin n → ℝ) (eps : ℝ) (heps : 0 ≤ eps)
    (hA : A = U * Matrix.diagonal σ * Vᵀ) (hU : Uᵀ * U = 1) (hV : V * Vᵀ = 1)
    (hσ : ∀ j, svdTolerance eps n σ < |σ j|) :
    pseudoInverseFromSVD U σ V eps * A = 1 := by
  have htol := svdTolerance_nonneg eps n σ heps
  have hne : ∀ j, σ j ≠ 0 := by
    intro j h0
    have := hσ j
    rw [h0, abs_zero] at this
    linarith
  have hdiag : Matrix.diagonal
      (fun i => if svdTolerance eps n σ < |σ i| then (σ i)⁻¹ else 0)
      * Matrix.diagonal σ = 1 := by
    rw [Matrix.diagonal_mul_diagonal]
    have hfun : (fun i =>
        (if svdTolerance eps n σ < |σ i| then (σ i)⁻¹ else 0) * σ i)
        = fun _ => (1 : ℝ) := by
      funext i
      rw [if_pos (hσ i), inv_mul_cancel₀ (hne i)]
    rw [hfun, Matrix.diagonal_one]
  unfold pseudoInverseFromSVD
  rw [hA]
  simp only [Matrix.mul_assoc]
  rw [← Matrix.mul_assoc Uᵀ U, hU, Matrix.one_mul,
    ← Matrix.mul_assoc _ (Matrix.diagonal σ), hdiag, Matrix.one_mul, hV]

/-- C1 (amended): with `λ = 0`, at least two distinct samples, and the
kernel system `MᵀM` well conditioned — its SVD factors orthogonal with every
singular value above the truncation tolerance, which is exactly when the
source's pseudo-inverse acts as a true inverse — querying the solver at a
training sample's feature vector reproduces that sample's scalar outputs
exactly. -/
theorem lrs_interpolation {n k p : ℕ} (F : Matrix (Fin n) (Fin k) ℝ)
    (O : Matrix (Fin n) (Fin p) ℝ) (rbf : ℤ) (radius eps : ℝ)
    (U V : Matrix (Fin n) (Fin n) ℝ) (σ : Fin n → ℝ) (i : Fin n)
    (hsamples : ∃ a b : Fin n, (fun c => F a c) ≠ fun c => F b c)
    (heps : 0 ≤ eps)
    (hsvd : regressionSystem (kernelMatrix rbf radius F) 0
      = U * Matrix.diagonal σ * Vᵀ)
    (hU : Uᵀ * U = 1) (hV : V * Vᵀ = 1)
    (hσ : ∀ j, svdTolerance eps n σ < |σ j|) :
    solveScalarOutputs
      (solveWeights
        (thetaMatrix (pseudoInverseFromSVD U σ V eps) (kernelMatrix rbf radius F))
        (inputDistance rbf radius F (fun c => F i c)))
      O = fun j => O i j := by
  set M := kernelMatrix rbf radius F with hM
  set P := pseudoInverseFromSVD U σ V eps with hP
  have hMsym : Mᵀ = M := kernelMatrix_symm rbf radius F
  have hAMM : regressionSystem M 0 = Mᵀ * M := by
    unfold regressionSystem
    rw [zero_smul, add_zero]
  have hPA : P * (Mᵀ * M) = 1 := by
    rw [← hAMM]
    exact pinv_mul_eq_one _ U V σ eps heps hsvd hU hV hσ
  have hAP : (Mᵀ * M) * P = 1 := Matrix.mul_eq_one_comm.mp hPA
  have hAsym : (Mᵀ * M)ᵀ = Mᵀ * M := by
    rw [Matrix.transpose_mul, Matrix.transpose_transpose]
  have hPtA : Pᵀ * (Mᵀ * M) = 1 := by
    have h := congrArg Matrix.transpose hAP
    rwa [Matrix.transpose_mul, hAsym, Matrix.transpose_one] at h
  have hPsym : Pᵀ = P := by
    have h1 : Pᵀ * ((Mᵀ * M) * P) = Pᵀ := by rw [hAP, Matrix.mul_one]
    have h2 : (Pᵀ * (Mᵀ * M)) * P = P := by rw [hPtA, Matrix.one_mul]
    rw [← h1, ← Matrix.mul_assoc, h2]
  have hdetA : IsUnit (Mᵀ * M).det := by
    have h := Matrix.det_mul (Mᵀ * M) P
    rw [hAP, Matrix.det_one] at h
    exact isUnit_of_mul_eq_one _ _ h.symm
  have hdetM : IsUnit M.det := by
    have h2 : (Mᵀ * M).det = M.det * M.det := by
      rw [Matrix.det_mul, Matrix.det_transpose]
    rw [h2] at hdetA
    exact isUnit_of_mul_isUnit_left hdetA
  have hPinv : P = (Mᵀ * M)⁻¹ := (Matrix.inv_eq_right_inv hAP).symm
  have hMPM : (M * P) * M = 1 := by
    rw [hPinv, hMsym, Matrix.mul_inv_rev]
    rw [← Matrix.mul_assoc M M⁻¹ M⁻¹, Matrix.mul_nonsing_inv M hdetM,
      Matrix.one_mul, Matrix.nonsing_inv_mul M hdetM]
  have hd : inputDistance rbf radius F (fun c => F i c) = M *ᵥ Pi.single i 1 := by
    funext s
    have hentry : inputDistance rbf radius F (fun c => F i c) s = M s i := by
      simp only [inputDistance, hM, kernelMatrix, Matrix.of_apply, distanceMatrix,
        normalizedQuery, normalizedFeatures]
    rw [hentry, Matrix.mulVec_single]
    exact (mul_one _).symm
  have hw : solveWeights (thetaMatrix P M)
      (inputDistance rbf radius F (fun c => F i c)) = Pi.single i 1 := by
    rw [hd]
    simp only [solveWeights, thetaMatrix, Matrix.mul_one]
    rw [Matrix.mulVec_mulVec]
    have hone : (P * Mᵀ)ᵀ * M = 1 := by
      rw [Matrix.transpose_mul, Matrix.transpose_transpose, hPsym]
      exact hMPM
    rw [hone, Matrix.one_mulVec]
  rw [hw]
  funext j
  simp [solveScalarOutputs, Matrix.single_dotProduct]

/-- Concrete two-sample, one-feature training set used for C1. -/
def interpFeatures : Matrix (Fin 2) (Fin 1) ℝ := !![0; 1]

/-- Concrete scalar outputs for the two samples (3 and 5). -/
def interpOutputs : Matrix (Fin 2) (Fin 1) ℝ := !![3; 5]

theorem interpFeatures_norms : featureNorms interpFeatures = fun _ => 1 := by
  funext j
  fin_cases j
  simp [featureNorms, interpFeatures, Fin.sum_univ_two]

theorem interpFeatures_normalized :
    normalizedFeatures interpFeatures = interpFeatures := by
  ext i j
  simp [normalizedFeatures, interpFeatures_norms]

theorem interp_distanceMatrix :
    distanceMatrix interpFeatures = !![0, 1; 1, 0] := by
  ext s i
  simp only [distanceMatrix, Matrix.of_apply, interpFeatures_normalized,
    Fin.sum_univ_one]
  fin_cases s <;> fin_cases i <;> norm_num [interpFeatures]

theorem interp_distanceNorm : distanceNorm interpFeatures = Real.sqrt 2 := by
  simp only [distanceNorm, interp_distanceMatrix]
  norm_num [Fin.sum_univ_two]

theorem interp_thinplate_kernel :
    kernelMatrix 2 (Real.sqrt 2 / 2) interpFeatures = 0 := by
  have hs2 : Real.sqrt 2 * Real.sqrt 2 = 2 := Real.mul_self_sqrt (by norm_num)
  have hs2pos : 0 < Real.sqrt 2 := Real.sqrt_pos.mpr (by norm_num)
  have hfloor : rbfRadiusFloor (Real.sqrt 2 / 2) = Real.sqrt 2 / 2 := by
    unfold rbfRadiusFloor
    rw [if_pos (by positivity)]
  have hv : (1 : ℝ) / Real.sqrt 2 / (Real.sqrt 2 / 2) = 1 := by
    field_simp
  have hzero : ThinPlate (Real.sqrt 2 / 2) 0 = 0 := by
    simp [ThinPlate, hfloor]
  have hone : ThinPlate (Real.sqrt 2 / 2) (1 / Real.sqrt 2) = 0 := by
    simp only [ThinPlate, hfloor, hv]
    norm_num [Real.log_one]
  have hrbf : ∀ y : ℝ, applyRbfEntry 2 (Real.sqrt 2 / 2) y
      = ThinPlate (Real.sqrt 2 / 2) y := by
    intro y
    simp [applyRbfEntry]
  ext s i
  simp only [kernelMatrix, Matrix.of_apply, interp_distanceMatrix,
    interp_distanceNorm, Matrix.zero_apply, hrbf]
  fin_cases s <;> fin_cases i <;>
    simp [hzero, hone, one_div]
  · rw [← one_div, hone]
  · rw [← one_div, hone]

/-- C1: the claim as frozen promises exact interpolation for every
configuration with `λ = 0` and two distinct samples.  With the thin-plate
kernel and radius `√2/2` the kernel-transformed distance matrix degenerates
to the zero matrix (`v = 1` off the diagonal, so `v² ln v = 0`), every
query weight vanishes, and the query at training sample 0 returns 0
instead of its stored output 3. -/
theorem lrs_interpolation_counterexample :
    (∃ a b : Fin 2, (fun c => interpFeatures a c) ≠ fun c => interpFeatures b c) ∧
    kernelMatrix 2 (Real.sqrt 2 / 2) interpFeatures = 0 ∧
    solveScalarOutputs
      (solveWeights
        (thetaMatrix (pseudoInverseFromSVD 1 (fun _ => 0) 1 0)
          (kernelMatrix 2 (Real.sqrt 2 / 2) interpFeatures))
        (inputDistance 2 (Real.sqrt 2 / 2) interpFeatures
          (fun c => interpFeatures 0 c)))
      interpOutputs 0 = 0 ∧
    interpOutputs 0 0 = 3 := by
  refine ⟨⟨0, 1, ?_⟩, interp_thinplate_kernel, ?_, by simp [interpOutputs]⟩
  · intro h
    have h0 := congrFun h 0
    simp [interpFeatures] at h0
  · rw [interp_thinplate_kernel]
    simp [thetaMatrix, solveWeights, solveScalarOutputs]

theorem interp_linear_kernel :
    kernelMatrix 0 1 interpFeatures
      = !![0, 1 / Real.sqrt 2; 1 / Real.sqrt 2, 0] := by
  ext s i
  fin_cases s <;> fin_cases i <;>
    simp [kernelMatrix, applyRbfEntry, interp_distanceMatrix,
      interp_distanceNorm]

theorem interp_linear_system :
    regressionSystem (kernelMatrix 0 1 interpFeatures) 0
      = 1 * Matrix.diagonal (fun _ => (1 : ℝ) / 2)
        * (1 : Matrix (Fin 2) (Fin 2) ℝ)ᵀ := by
  have hs2 : Real.sqrt 2 * Real.sqrt 2 = 2 := Real.mul_self_sqrt (by norm_num)
  have hval : (Real.sqrt 2)⁻¹ * (Real.sqrt 2)⁻¹ = (2 : ℝ)⁻¹ := by
    rw [← mul_inv, hs2]
  have htr : (!![0, 1 / Real.sqrt 2; 1 / Real.sqrt 2, 0])ᵀ
      = !![0, 1 / Real.sqrt 2; 1 / Real.sqrt 2, 0] := by
    ext a b
    fin_cases a <;> fin_cases b <;> simp
  simp only [regressionSystem, interp_linear_kernel, htr, zero_smul, add_zero,
    Matrix.transpose_one, Matrix.mul_one, Matrix.one_mul]
  ext s i
  fin_cases s <;> fin_cases i <;>
    simp [Matrix.mul_apply, Fin.sum_univ_two, Matrix.diagonal_apply, hval,
      one_div]

/-- C1 witness: linear kernel, two distinct samples, and the explicit SVD
`U = V = I`, `σ = (1/2, 1/2)` of the concrete system matrix. -/
theorem lrs_interpolation_witness :
    (0 : ℝ) ≤ 0 ∧
    solveScalarOutputs
      (solveWeights
        (thetaMatrix (pseudoInverseFromSVD 1 (fun _ => (1 : ℝ) / 2) 1 0)
          (kernelMatrix 0 1 interpFeatures))
        (inputDistance 0 1 interpFeatures (fun c => interpFeatures 0 c)))
      interpOutputs = fun j => interpOutputs 0 j := by
  refine ⟨le_rfl, ?_⟩
  refine lrs_interpolation interpFeatures interpOutputs 0 1 0 1 1
    (fun _ => (1 : ℝ) / 2) 0 ⟨0, 1, ?_⟩ le_rfl interp_linear_system
    (by simp) (by simp) ?_
  · intro h
    have h0 := congrFun h 0
    simp [interpFeatures] at h0
  · intro j
    norm_num [svdTolerance]

/-- C8: a solver built from zero or one samples stores the empty coefficient
matrix and every subsequent query returns the empty result, with no error
path involved. -/
theorem solver_empty_guard {n k p : ℕ} (F : Matrix (Fin n) (Fin k) ℝ)
    (quatSamples : List (List Quat)) (rbf : ℤ) (radius reg eps : ℝ)
    (U V : Matrix (Fin n) (Fin n) ℝ) (σ : Fin n → ℝ)
    (O : Matrix (Fin n) (Fin p) ℝ)
    (h : sampleCount n quatSamples.length ≤ 1) :
    setFeaturesTheta F quatSamples rbf radius reg eps U V σ = none ∧
    ∀ (theta : Matrix (Fin n) (Fin n) ℝ) (q : Fin k → ℝ),
      solveResult F quatSamples rbf radius theta O q = none := by
  constructor
  · simp [setFeaturesTheta, h]
  · intro theta q
    simp [solveResult, h]

/-- C8 witness: a one-sample solver. -/
theorem solver_empty_guard_witness :
    sampleCount 1 0 ≤ 1 ∧
    setFeaturesTheta (Matrix.of fun (_ : Fin 1) (_ : Fin 1) => (0 : ℝ)) []
      0 1 0 0 1 1 (fun _ => 0) = none := by
  have h : sampleCount 1 0 ≤ 1 := by simp [sampleCount]
  exact ⟨h,
    (solver_empty_guard (Matrix.of fun (_ : Fin 1) (_ : Fin 1) => (0 : ℝ))
      [] 0 1 0 0 1 1 (fun _ => 0)
      (Matrix.of fun (_ : Fin 1) (_ : Fin 1) => (0 : ℝ)) h).1⟩

/-! ## Two-bone IK (ikRigNode.cpp second revision: twoBoneIk lines 499-540,
compute lines 414-452; clamp from ikRigNode.h lines 156-164)

Maya vector and quaternion operations are modelled by their API contract:
`MVector::normal()` divides by the length (zero length gives the junk zero
vector where the C++ floats produce NaN), `MQuaternion(angle, axis)` is the
axis-angle constructor over a unit axis, `rotateBy` conjugates by the
quaternion (the two conjugation conventions agree on every property proved
here), `rotateTo` is the angle-axis rotation between two directions, and
`getAxisAngle` reports a unit rotation axis. -/

@[ext]
structure V3 where
  x : ℝ
  y : ℝ
  z : ℝ

namespace V3

/-- Componentwise sum. -/
def add (u v : V3) : V3 := ⟨u.x + v.x, u.y + v.y, u.z + v.z⟩

/-- Componentwise difference. -/
def sub (u v : V3) : V3 := ⟨u.x - v.x, u.y - v.y, u.z - v.z⟩

/-- Scalar multiple. -/
def smul (c : ℝ) (v : V3) : V3 := ⟨c * v.x, c * v.y, c * v.z⟩

/-- Dot product (Maya `MVector::operator*`). -/
def dot (u v : V3) : ℝ := u.x * v.x + u.y * v.y + u.z * v.z

/-- Cross product (Maya `MVector::operator^`). -/
def cross (u v : V3) : V3 :=
  ⟨u.y * v.z - u.z * v.y, u.z * v.x - u.x * v.z, u.x * v.y - u.y * v.x⟩

/-- Euclidean length (Maya `MVector::length`). -/
def length (v : V3) : ℝ := Real.sqrt (dot v v)

/-- Maya `MVector::normal()`: the vector divided by its length. -/
def normal (v : V3) : V3 := smul (1 / length v) v

theorem dot_comm (u v : V3) : dot u v = dot v u := by
  simp only [dot]
  ring

theorem dot_self_nonneg (v : V3) : 0 ≤ dot v v := by
  simp only [dot]
  nlinarith [mul_self_nonneg v.x, mul_self_nonneg v.y, mul_self_nonneg v.z]

theorem dot_self_pos (v : V3) (h : v ≠ ⟨0, 0, 0⟩) : 0 < dot v v := by
  rcases lt_or_eq_of_le (dot_self_nonneg v) with hlt | heq
  · exact hlt
  · exfalso
    apply h
    have h4 : v.x ^ 2 + v.y ^ 2 + v.z ^ 2 + (0 : ℝ) ^ 2 = 0 := by
      have hd : v.x * v.x + v.y * v.y + v.z * v.z = 0 := heq.symm
      linear_combination hd
    obtain ⟨hx, hy, hz, _⟩ := sum_four_sq_eq_zero _ _ _ _ h4
    ext <;> simp [hx, hy, hz]

theorem length_nonneg (v : V3) : 0 ≤ length v := Real.sqrt_nonneg _

theorem length_sq (v : V3) : length v ^ 2 = dot v v :=
  Real.sq_sqrt (dot_self_nonneg v)

theorem length_pos (v : V3) (h : v ≠ ⟨0, 0, 0⟩) : 0 < length v :=
  Real.sqrt_pos.mpr (dot_self_pos v h)

theorem dot_smul_left (c : ℝ) (u v : V3) : dot (smul c u) v = c * dot u v := by
  simp only [dot, smul]
  ring

theorem dot_smul_right (c : ℝ) (u v : V3) : dot u (smul c v) = c * dot u v := by
  simp only [dot, smul]
  ring

theorem dot_sub_right (u v w : V3) : dot u (sub v w) = dot u v - dot u w := by
  simp only [dot, sub]
  ring

theorem dot_normal_self (v : V3) (h : v ≠ ⟨0, 0, 0⟩) :
    dot (normal v) (normal v) = 1 := by
  have hd := dot_self_pos v h
  have hl := length_pos v h
  have hl2 := length_sq v
  rw [normal, dot_smul_left, dot_smul_right]
  field_simp
  nlinarith [hl2]

theorem normal_ne_zero (v : V3) (h : v ≠ ⟨0, 0, 0⟩) :
    normal v ≠ ⟨0, 0, 0⟩ := by
  intro h0
  have h1 := dot_normal_self v h
  rw [h0] at h1
  simp [dot] at h1

/-- Lagrange identity for the 3-dimensional cross product. -/
theorem cross_dot_self (u v : V3) :
    dot (cross u v) (cross u v) = dot u u * dot v v - dot u v ^ 2 := by
  simp only [cross, dot]
  ring

theorem cross_ne_zero_of_orth (u v : V3) (hu : u ≠ ⟨0, 0, 0⟩)
    (hv : v ≠ ⟨0, 0, 0⟩) (huv : dot u v = 0) : cross u v ≠ ⟨0, 0, 0⟩ := by
  intro h
  have h0 : dot (cross u v) (cross u v) = 0 := by
    rw [h]
    simp [dot]
  rw [cross_dot_self, huv] at h0
  have hpos := mul_pos (dot_self_pos u hu) (dot_self_pos v hv)
  nlinarith

end V3

/-- clamp helper of ikRigNode.h lines 156-164. -/
def clamp (inValue minValue maxValue : ℝ) : ℝ :=
  if inValue < minValue then minValue
  else if inValue > maxValue then maxValue
  else inValue

theorem clamp_mem (v lo hi : ℝ) (h : lo ≤ hi) :
    lo ≤ clamp v lo hi ∧ clamp v lo hi ≤ hi := by
  unfold clamp
  split_ifs with h1 h2 <;> constructor <;> linarith

theorem clamp_abs_le_one (x : ℝ) :
    -1 ≤ clamp x (-1) 1 ∧ clamp x (-1) 1 ≤ 1 :=
  clamp_mem x (-1) 1 (by norm_num)

theorem clamp_eq_self (v lo hi : ℝ) (h1 : ¬ v < lo) (h2 : ¬ v > hi) :
    clamp v lo hi = v := by
  unfold clamp
  rw [if_neg h1, if_neg h2]

/-- Maya axis-angle quaternion constructor `MQuaternion(angle, axis)`. -/
def quatAxisAngle (angle : ℝ) (axis : V3) : Quat :=
  ⟨Real.sin (angle / 2) * axis.x, Real.sin (angle / 2) * axis.y,
   Real.sin (angle / 2) * axis.z, Real.cos (angle / 2)⟩

/-- Pure quaternion with the given imaginary part. -/
def pureQ (v : V3) : Quat := ⟨v.x, v.y, v.z, 0⟩

/-- Imaginary part of a quaternion as a vector. -/
def vectorPart (q : Quat) : V3 := ⟨q.x, q.y, q.z⟩

/-- Maya `MVector::rotateBy`: conjugation by the quaternion. -/
def rotateBy (v : V3) (q : Quat) : V3 :=
  vectorPart (Quat.mul (Quat.mul (Quat.conj q) (pureQ v)) q)

/-- Maya `MVector::rotateTo`: rotation about the common normal by the angle
between the two directions. -/
def rotateTo (u v : V3) : Quat :=
  quatAxisAngle
    (Real.arccos (clamp (V3.dot (V3.normal u) (V3.normal v)) (-1) 1))
    (V3.normal (V3.cross u v))

open scoped Classical in
/-- Axis reported by Maya `MQuaternion::getAxisAngle`: the normalized
imaginary part, or an arbitrary unit default when the rotation is the
identity. -/
def axisAngleAxis (q : Quat) : V3 :=
  if vectorPart q = ⟨0, 0, 0⟩ then ⟨0, 0, 1⟩ else V3.normal (vectorPart q)

theorem normSq_conj (q : Quat) : Quat.normSq (Quat.conj q) = Quat.normSq q := by
  simp only [Quat.conj, Quat.normSq]
  ring

theorem conj_mul_pure_mul_w (q : Quat) (v : V3) :
    (Quat.mul (Quat.mul (Quat.conj q) (pureQ v)) q).w = 0 := by
  simp only [Quat.mul, Quat.conj, pureQ]
  ring

theorem dot_vectorPart (p : Quat) :
    V3.dot (vectorPart p) (vectorPart p) = Quat.normSq p - p.w ^ 2 := by
  simp only [V3.dot, vectorPart, Quat.normSq]
  ring

theorem normSq_pureQ (v : V3) : Quat.normSq (pureQ v) = V3.dot v v := by
  simp only [Quat.normSq, pureQ, V3.dot]
  ring

theorem dot_rotateBy (v : V3) (q : Quat) (hq : Quat.normSq q = 1) :
    V3.dot (rotateBy v q) (rotateBy v q) = V3.dot v v := by
  have hw := conj_mul_pure_mul_w q v
  have hn : Quat.normSq (Quat.mul (Quat.mul (Quat.conj q) (pureQ v)) q)
      = V3.dot v v := by
    rw [Quat.normSq_mul, Quat.normSq_mul, normSq_conj, hq, normSq_pureQ]
    ring
  rw [rotateBy, dot_vectorPart, hn, hw]
  ring

theorem length_rotateBy (v : V3) (q : Quat) (hq : Quat.normSq q = 1) :
    V3.length (rotateBy v q) = V3.length v := by
  unfold V3.length
  rw [dot_rotateBy v q hq]

theorem normSq_quatAxisAngle (angle : ℝ) (axis : V3) :
    Quat.normSq (quatAxisAngle angle axis)
      = Real.sin (angle / 2) ^ 2 * V3.dot axis axis
        + Real.cos (angle / 2) ^ 2 := by
  simp only [quatAxisAngle, Quat.normSq, V3.dot]
  ring

theorem normSq_quatAxisAngle_unit (angle : ℝ) (axis : V3)
    (h : V3.dot axis axis = 1) :
    Quat.normSq (quatAxisAngle angle axis) = 1 := by
  rw [normSq_quatAxisAngle, h, mul_one, Real.sin_sq_add_cos_sq]

theorem dot_axisAngleAxis (q : Quat) :
    V3.dot (axisAngleAxis q) (axisAngleAxis q) = 1 := by
  unfold axisAngleAxis
  split_ifs with h
  · simp [V3.dot]
  · exact V3.dot_normal_self _ h

theorem normSq_rotateTo (u v : V3)
    (h : V3.cross u v ≠ ⟨0, 0, 0⟩
      ∨ 1 ≤ V3.dot (V3.normal u) (V3.normal v)) :
    Quat.normSq (rotateTo u v) = 1 := by
  rcases h with h | h
  · exact normSq_quatAxisAngle_unit _ _ (V3.dot_normal_self _ h)
  · have hcl : clamp (V3.dot (V3.normal u) (V3.normal v)) (-1) 1 = 1 := by
      unfold clamp
      split_ifs with h1 h2
      · linarith
      · rfl
      · linarith
    rw [rotateTo, hcl, Real.arccos_one]
    norm_num [quatAxisAngle, Quat.normSq]

theorem rotateBy_one (v : V3) : rotateBy v ⟨0, 0, 0, 1⟩ = v := by
  ext <;> simp [rotateBy, vectorPart, pureQ, Quat.mul, Quat.conj]

theorem rotateBy_zeroQuat (v : V3) : rotateBy v ⟨0, 0, 0, 0⟩ = ⟨0, 0, 0⟩ := by
  ext <;> simp [rotateBy, vectorPart, pureQ, Quat.mul, Quat.conj]

theorem mul_zeroQuat (q : Quat) : Quat.mul q ⟨0, 0, 0, 0⟩ = ⟨0, 0, 0, 0⟩ := by
  ext <;> simp [Quat.mul]

/-- A rotation about the Z axis fixes the Z axis, whatever the angle. -/
theorem rotateBy_zAxis (angle : ℝ) :
    rotateBy ⟨0, 0, 1⟩ (quatAxisAngle angle ⟨0, 0, 1⟩) = ⟨0, 0, 1⟩ := by
  have h := Real.sin_sq_add_cos_sq (angle / 2)
  ext
  · simp only [rotateBy, vectorPart, pureQ, Quat.mul, Quat.conj, quatAxisAngle]
    ring
  · simp only [rotateBy, vectorPart, pureQ, Quat.mul, Quat.conj, quatAxisAngle]
    ring
  · simp only [rotateBy, vectorPart, pureQ, Quat.mul, Quat.conj, quatAxisAngle]
    linear_combination h

/-! ### twoBoneIk (lines 499-540), with each local named -/

/-- `eps` of line 502. -/
def ikEps : ℝ := 0.001

/-- `lab = (b - a).length()` (line 503). -/
def ikLab (a b : V3) : ℝ := V3.length (V3.sub b a)

/-- `lcb = (b - c).length()` (line 504). -/
def ikLcb (b c : V3) : ℝ := V3.length (V3.sub b c)

/-- `lat = clamp((t - a).length(), eps, lab + lcb - eps)` (line 505). -/
def ikLat (a b c t : V3) : ℝ :=
  clamp (V3.length (V3.sub t a)) ikEps (ikLab a b + ikLcb b c - ikEps)

/-- Current interior angle at the root (line 508). -/
def ikAcAb0 (a b c : V3) : ℝ :=
  Real.arccos (clamp
    (V3.dot (V3.normal (V3.sub c a)) (V3.normal (V3.sub b a))) (-1) 1)

/-- Current interior angle at the mid joint (line 509). -/
def ikBaBc0 (a b c : V3) : ℝ :=
  Real.arccos (clamp
    (V3.dot (V3.normal (V3.sub a b)) (V3.normal (V3.sub c b))) (-1) 1)

/-- Current angle from the effector direction to the target (line 510). -/
def ikAcAt0 (a c t : V3) : ℝ :=
  Real.arccos (clamp
    (V3.dot (V3.normal (V3.sub c a)) (V3.normal (V3.sub t a))) (-1) 1)

/-- Desired interior angle at the root, law of cosines (lines 513-514). -/
def ikAcAb1 (a b c t : V3) : ℝ :=
  Real.arccos (clamp
    ((ikLcb b c * ikLcb b c - ikLab a b * ikLab a b
        - ikLat a b c t * ikLat a b c t)
      / (-2 * ikLab a b * ikLat a b c t)) (-1) 1)

/-- Desired interior angle at the mid joint, law of cosines (lines 515-516). -/
def ikBaBc1 (a b c t : V3) : ℝ :=
  Real.arccos (clamp
    ((ikLat a b c t * ikLat a b c t - ikLab a b * ikLab a b
        - ikLcb b c * ikLcb b c)
      / (-2 * ikLab a b * ikLcb b c)) (-1) 1)

/-- `axis0 = ((c - a) ^ d).normal()` (line 518). -/
def ikAxis0 (a c d : V3) : V3 := V3.normal (V3.cross (V3.sub c a) d)

/-- `axis1 = ((c - a) ^ (t - a)).normal()` (line 519). -/
def ikAxis1 (a c t : V3) : V3 :=
  V3.normal (V3.cross (V3.sub c a) (V3.sub t a))

/-- `r0` (line 521). -/
def ikR0 (a b c d t : V3) : Quat :=
  quatAxisAngle (ikAcAb1 a b c t - ikAcAb0 a b c) (ikAxis0 a c d)

/-- `r1` (line 522). -/
def ikR1 (a b c d t : V3) : Quat :=
  quatAxisAngle (ikBaBc1 a b c t - ikBaBc0 a b c) (ikAxis0 a c d)

/-- `r2` (line 523). -/
def ikR2 (a c t : V3) : Quat := quatAxisAngle (ikAcAt0 a c t) (ikAxis1 a c t)

/-- `n1`: bend-plane normal after `r0` and `r2` (line 528). -/
def ikN1 (a b c d t : V3) : V3 :=
  rotateBy (rotateBy (V3.normal (V3.cross (V3.sub c a) (V3.sub b a)))
    (ikR0 a b c d t)) (ikR2 a c t)

/-- `n2`: pole-vector plane normal (line 529). -/
def ikN2 (a t pv : V3) : V3 :=
  V3.normal (V3.cross (V3.sub t a) (V3.sub pv a))

/-- `r3 = n1.rotateTo(n2)` before twist injection (line 530). -/
def ikR3base (a b c d t pv : V3) : Quat :=
  rotateTo (ikN1 a b c d t) (ikN2 a t pv)

/-- `r3` after the twist quaternion about its own axis (lines 531-534). -/
def ikR3 (a b c d t pv : V3) (twist : ℝ) : Quat :=
  Quat.mul (ikR3base a b c d t pv)
    (quatAxisAngle (twist * 0.0174533) (axisAngleAxis (ikR3base a b c d t pv)))

/-- twoBoneIk (lines 499-540): the corrected world rotations
`(a_gr · r0 r2 r3, b_gr · r1 · r0 r2 r3)` of the root and mid joints. -/
def twoBoneIk (a b c d t pv : V3) (twist : ℝ) (a_gr b_gr : Quat) :
    Quat × Quat :=
  (Quat.mul a_gr
    (Quat.mul (Quat.mul (ikR0 a b c d t) (ikR2 a c t)) (ikR3 a b c d t pv twist)),
   Quat.mul (Quat.mul b_gr (ikR1 a b c d t))
    (Quat.mul (Quat.mul (ikR0 a b c d t) (ikR2 a c t)) (ikR3 a b c d t pv twist)))

/-- Bend-direction input built by compute (lines 420-429) before the
normalization: the perpendicular component of the root→mid offset with
respect to the root→effector direction. -/
def ikBendPerp (a b c : V3) : V3 :=
  V3.sub (V3.sub b a)
    (V3.smul (V3.dot (V3.sub b a) (V3.normal (V3.sub c a)))
      (V3.normal (V3.sub c a)))

/-- The `d` passed to twoBoneIk by compute (line 421). -/
def ikBendDir (a b c : V3) : V3 := V3.normal (ikBendPerp a b c)

/-- Corrected mid-joint placement of compute lines 444-449: the target-rest
local offset `o` of the mid joint transformed by the corrected root world
matrix (rotation `a_gr`, translation `a`). -/
def ikMidJoint (a o : V3) (a_gr : Quat) : V3 := V3.add a (rotateBy o a_gr)

theorem sub_add_cancel_V3 (a w : V3) : V3.sub (V3.add a w) a = w := by
  ext <;> simp [V3.add, V3.sub]

/-- A vector is orthogonal to the residual of projecting another vector
onto it. -/
theorem dot_sub_proj (u v : V3) (hu : u ≠ ⟨0, 0, 0⟩) :
    V3.dot u (V3.sub v (V3.smul (V3.dot v (V3.normal u)) (V3.normal u))) = 0 := by
  have hd := V3.dot_self_pos u hu
  have hl := V3.length_pos u hu
  have hl2 := V3.length_sq u
  rw [V3.dot_sub_right, V3.dot_smul_right, V3.normal, V3.dot_smul_right,
    V3.dot_smul_right]
  have hcomm := V3.dot_comm u v
  have hll : u.length * u.length = u.dot u := by
    rw [← pow_two]
    exact hl2
  field_simp
  linear_combination V3.dot u v * hll + V3.dot u u * hcomm

theorem bendPerp_orth (a b c : V3) (hca : V3.sub c a ≠ ⟨0, 0, 0⟩) :
    V3.dot (V3.sub c a) (ikBendPerp a b c) = 0 :=
  dot_sub_proj (V3.sub c a) (V3.sub b a) hca

theorem bendDir_orth (a b c : V3) (hca : V3.sub c a ≠ ⟨0, 0, 0⟩) :
    V3.dot (V3.sub c a) (ikBendDir a b c) = 0 := by
  rw [ikBendDir, V3.normal, V3.dot_smul_right, bendPerp_orth a b c hca,
    mul_zero]

/-- With a nonzero effector direction and a nonzero bend component, the
`axis0` of twoBoneIk is a unit vector. -/
theorem ikAxis0_unit (a b c : V3) (hca : V3.sub c a ≠ ⟨0, 0, 0⟩)
    (hperp : ikBendPerp a b c ≠ ⟨0, 0, 0⟩) :
    V3.dot (ikAxis0 a c (ikBendDir a b c)) (ikAxis0 a c (ikBendDir a b c)) = 1 := by
  apply V3.dot_normal_self
  exact V3.cross_ne_zero_of_orth _ _ hca
    (V3.normal_ne_zero _ hperp) (bendDir_orth a b c hca)

/-- Unit norm of the composite correction `r0 · r2 · r3`. -/
theorem normSq_ikCorrection (a b c t pv : V3) (twist : ℝ)
    (hca : V3.sub c a ≠ ⟨0, 0, 0⟩)
    (hperp : ikBendPerp a b c ≠ ⟨0, 0, 0⟩)
    (haxis1 : V3.cross (V3.sub c a) (V3.sub t a) ≠ ⟨0, 0, 0⟩)
    (hpole : V3.cross (ikN1 a b c (ikBendDir a b c) t) (ikN2 a t pv) ≠ ⟨0, 0, 0⟩
      ∨ 1 ≤ V3.dot (V3.normal (ikN1 a b c (ikBendDir a b c) t))
          (V3.normal (ikN2 a t pv))) :
    Quat.normSq (Quat.mul
      (Quat.mul (ikR0 a b c (ikBendDir a b c) t) (ikR2 a c t))
      (ikR3 a b c (ikBendDir a b c) t pv twist)) = 1 := by
  have hr0 : Quat.normSq (ikR0 a b c (ikBendDir a b c) t) = 1 :=
    normSq_quatAxisAngle_unit _ _ (ikAxis0_unit a b c hca hperp)
  have hr2 : Quat.normSq (ikR2 a c t) = 1 :=
    normSq_quatAxisAngle_unit _ _ (V3.dot_normal_self _ haxis1)
  have hr3b : Quat.normSq (ikR3base a b c (ikBendDir a b c) t pv) = 1 :=
    normSq_rotateTo _ _ hpole
  have hr3 : Quat.normSq (ikR3 a b c (ikBendDir a b c) t pv twist) = 1 := by
    rw [ikR3, Quat.normSq_mul, hr3b,
      normSq_quatAxisAngle_unit _ _ (dot_axisAngleAxis _), one_mul]
  rw [Quat.normSq_mul, Quat.normSq_mul, hr0, hr2, hr3]
  norm_num

/-- C3 (amended): for a chain with a nonzero root→effector direction and a
nonzero bend component, a unit current root rotation consistent with the
rest offset `o` of the mid joint, a target strictly inside the reachable
annulus whose aim axis `(c-a) × (t-a)` is nonzero, and a pole-plane
alignment that is not antipodal, the corrected mid joint stays at distance
`lab` from the (unmoved) root and the target sits at the clamped target
distance from the root. -/
theorem twoBoneIk_rigid (a b c t pv o : V3) (twist : ℝ) (a_gr b_gr : Quat)
    (hca : V3.sub c a ≠ ⟨0, 0, 0⟩)
    (hperp : ikBendPerp a b c ≠ ⟨0, 0, 0⟩)
    (ha_gr : Quat.normSq a_gr = 1)
    (hb : b = ikMidJoint a o a_gr)
    (ht1 : ikEps < V3.length (V3.sub t a))
    (ht2 : V3.length (V3.sub t a) < ikLab a b + ikLcb b c - ikEps)
    (haxis1 : V3.cross (V3.sub c a) (V3.sub t a) ≠ ⟨0, 0, 0⟩)
    (hpole : V3.cross (ikN1 a b c (ikBendDir a b c) t) (ikN2 a t pv) ≠ ⟨0, 0, 0⟩
      ∨ 1 ≤ V3.dot (V3.normal (ikN1 a b c (ikBendDir a b c) t))
          (V3.normal (ikN2 a t pv))) :
    V3.length (V3.sub
      (ikMidJoint a o
        (twoBoneIk a b c (ikBendDir a b c) t pv twist a_gr b_gr).1) a)
      = ikLab a b ∧
    V3.length (V3.sub t a) = ikLat a b c t := by
  have hcorr := normSq_ikCorrection a b c t pv twist hca hperp haxis1 hpole
  have hfst : (twoBoneIk a b c (ikBendDir a b c) t pv twist a_gr b_gr).1
      = Quat.mul a_gr
        (Quat.mul (Quat.mul (ikR0 a b c (ikBendDir a b c) t) (ikR2 a c t))
          (ikR3 a b c (ikBendDir a b c) t pv twist)) := rfl
  have hout : Quat.normSq
      (twoBoneIk a b c (ikBendDir a b c) t pv twist a_gr b_gr).1 = 1 := by
    rw [hfst, Quat.normSq_mul, ha_gr, one_mul]
    exact hcorr
  constructor
  · rw [ikMidJoint, sub_add_cancel_V3, length_rotateBy _ _ hout, ikLab, hb,
      ikMidJoint, sub_add_cancel_V3, length_rotateBy _ _ ha_gr]
  · rw [ikLat, clamp_eq_self]
    · exact not_lt.mpr ht1.le
    · exact not_lt.mpr ht2.le

/-! ### Concrete IK chain used by the C3/C4 counterexamples and witnesses -/

/-- Root position of the concrete chain. -/
def ikPa : V3 := ⟨0, 0, 0⟩

/-- Mid position of the concrete chain. -/
def ikPb : V3 := ⟨1, 1, 0⟩

/-- Effector position of the concrete chain. -/
def ikPc : V3 := ⟨2, 0, 0⟩

/-- Rest local offset of the mid joint of the concrete chain. -/
def ikPo : V3 := ⟨1, 1, 0⟩

theorem normal_zero_V3 : V3.normal ⟨0, 0, 0⟩ = ⟨0, 0, 0⟩ := by
  ext <;> simp [V3.normal, V3.smul]

theorem normal_xAxis (c : ℝ) (hc : 0 < c) :
    V3.normal ⟨c, 0, 0⟩ = ⟨1, 0, 0⟩ := by
  have hd : V3.dot ⟨c, 0, 0⟩ ⟨c, 0, 0⟩ = c * c := by simp [V3.dot]
  have hl : V3.length ⟨c, 0, 0⟩ = c := by
    rw [V3.length, hd, Real.sqrt_mul_self hc.le]
  ext <;> simp [V3.normal, V3.smul, hl] <;> field_simp

theorem normal_yAxis (c : ℝ) (hc : 0 < c) :
    V3.normal ⟨0, c, 0⟩ = ⟨0, 1, 0⟩ := by
  have hd : V3.dot ⟨0, c, 0⟩ ⟨0, c, 0⟩ = c * c := by simp [V3.dot]
  have hl : V3.length ⟨0, c, 0⟩ = c := by
    rw [V3.length, hd, Real.sqrt_mul_self hc.le]
  ext <;> simp [V3.normal, V3.smul, hl] <;> field_simp

theorem normal_zAxis (c : ℝ) (hc : 0 < c) :
    V3.normal ⟨0, 0, c⟩ = ⟨0, 0, 1⟩ := by
  have hd : V3.dot ⟨0, 0, c⟩ ⟨0, 0, c⟩ = c * c := by simp [V3.dot]
  have hl : V3.length ⟨0, 0, c⟩ = c := by
    rw [V3.length, hd, Real.sqrt_mul_self hc.le]
  ext <;> simp [V3.normal, V3.smul, hl] <;> field_simp

theorem normal_negX : V3.normal ⟨-1, 0, 0⟩ = ⟨-1, 0, 0⟩ := by
  have hd : V3.dot ⟨-1, 0, 0⟩ ⟨-1, 0, 0⟩ = 1 := by norm_num [V3.dot]
  have hl : V3.length ⟨-1, 0, 0⟩ = 1 := by rw [V3.length, hd, Real.sqrt_one]
  ext <;> simp [V3.normal, V3.smul, hl]

theorem ik_lab_concrete : ikLab ikPa ikPb = Real.sqrt 2 := by
  have : V3.dot (V3.sub ikPb ikPa) (V3.sub ikPb ikPa) = 2 := by
    norm_num [V3.dot, V3.sub, ikPa, ikPb]
  rw [ikLab, V3.length, this]

theorem ik_lcb_concrete : ikLcb ikPb ikPc = Real.sqrt 2 := by
  have : V3.dot (V3.sub ikPb ikPc) (V3.sub ikPb ikPc) = 2 := by
    norm_num [V3.dot, V3.sub, ikPb, ikPc]
  rw [ikLcb, V3.length, this]

theorem sqrt_two_gt : (1.4 : ℝ) < Real.sqrt 2 := by
  rw [Real.lt_sqrt (by norm_num)]
  norm_num

theorem sqrt_two_lt : Real.sqrt 2 < 1.5 := by
  rw [Real.sqrt_lt' (by norm_num)]
  norm_num

theorem ik_bendPerp_concrete : ikBendPerp ikPa ikPb ikPc = ⟨0, 1, 0⟩ := by
  have hn : V3.normal (V3.sub ikPc ikPa) = ⟨1, 0, 0⟩ := by
    have : V3.sub ikPc ikPa = ⟨2, 0, 0⟩ := by norm_num [V3.sub, ikPa, ikPc]
    rw [this, normal_xAxis 2 (by norm_num)]
  rw [ikBendPerp, hn]
  norm_num [V3.sub, V3.smul, V3.dot, ikPa, ikPb]

theorem ik_bendDir_concrete : ikBendDir ikPa ikPb ikPc = ⟨0, 1, 0⟩ := by
  rw [ikBendDir, ik_bendPerp_concrete, normal_yAxis 1 (by norm_num)]

theorem ik_axis0_concrete :
    ikAxis0 ikPa ikPc (ikBendDir ikPa ikPb ikPc) = ⟨0, 0, 1⟩ := by
  rw [ikAxis0, ik_bendDir_concrete]
  have hcr : V3.cross (V3.sub ikPc ikPa) ⟨0, 1, 0⟩ = ⟨0, 0, 2⟩ := by
    norm_num [V3.cross, V3.sub, ikPa, ikPc]
  rw [hcr, normal_zAxis 2 (by norm_num)]

/-- With an aim axis that normalizes to the Z axis, the rotated bend-plane
normal of the concrete chain stays the Z axis. -/
theorem ikN1_concrete (t : V3) (haxis : ikAxis1 ikPa ikPc t = ⟨0, 0, 1⟩) :
    ikN1 ikPa ikPb ikPc (ikBendDir ikPa ikPb ikPc) t = ⟨0, 0, 1⟩ := by
  have hbase : V3.normal (V3.cross (V3.sub ikPc ikPa) (V3.sub ikPb ikPa))
      = ⟨0, 0, 1⟩ := by
    have hcr : V3.cross (V3.sub ikPc ikPa) (V3.sub ikPb ikPa) = ⟨0, 0, 2⟩ := by
      norm_num [V3.cross, V3.sub, ikPa, ikPb, ikPc]
    rw [hcr, normal_zAxis 2 (by norm_num)]
  rw [ikN1, hbase, ikR0, ik_axis0_concrete, rotateBy_zAxis, ikR2, haxis,
    rotateBy_zAxis]

/-- C3: the claim as frozen admits every target direction inside the
reachable annulus, but a target antiparallel to the root→effector axis
zeroes the re-aim axis `(c-a) × (t-a)`; the re-aim quaternion collapses to
the zero quaternion (its axis normalizes 0/0 — NaN in the C++ floats), the
corrected root rotation is the zero quaternion, and the propagated mid
joint lands on the root: its distance to the root is 0, not `lab = √2`. -/
theorem twoBoneIk_rigid_counterexample :
    ikEps < V3.length (V3.sub ⟨-1, 0, 0⟩ ikPa) ∧
    V3.length (V3.sub (⟨-1, 0, 0⟩ : V3) ikPa)
      < ikLab ikPa ikPb + ikLcb ikPb ikPc - ikEps ∧
    ikPb = ikMidJoint ikPa ikPo ⟨0, 0, 0, 1⟩ ∧
    V3.length (V3.sub (ikMidJoint ikPa ikPo
      (twoBoneIk ikPa ikPb ikPc (ikBendDir ikPa ikPb ikPc) ⟨-1, 0, 0⟩
        ⟨0, 1, 0⟩ 0 ⟨0, 0, 0, 1⟩ ⟨0, 0, 0, 1⟩).1) ikPa) = 0 ∧
    ikLab ikPa ikPb = Real.sqrt 2 ∧
    (0 : ℝ) < Real.sqrt 2 := by
  have hsub : V3.sub (⟨-1, 0, 0⟩ : V3) ikPa = ⟨-1, 0, 0⟩ := by
    norm_num [V3.sub, ikPa]
  have hlt : V3.length (V3.sub (⟨-1, 0, 0⟩ : V3) ikPa) = 1 := by
    rw [hsub]
    have : V3.dot (⟨-1, 0, 0⟩ : V3) ⟨-1, 0, 0⟩ = 1 := by norm_num [V3.dot]
    rw [V3.length, this, Real.sqrt_one]
  have h14 := sqrt_two_gt
  have hr2zero : ikR2 ikPa ikPc ⟨-1, 0, 0⟩ = ⟨0, 0, 0, 0⟩ := by
    have hax : ikAxis1 ikPa ikPc ⟨-1, 0, 0⟩ = ⟨0, 0, 0⟩ := by
      have hcr : V3.cross (V3.sub ikPc ikPa) (V3.sub ⟨-1, 0, 0⟩ ikPa)
          = ⟨0, 0, 0⟩ := by
        norm_num [V3.cross, V3.sub, ikPa, ikPc]
      rw [ikAxis1, hcr, normal_zero_V3]
    have hang : ikAcAt0 ikPa ikPc ⟨-1, 0, 0⟩ = Real.pi := by
      have hna : V3.normal (V3.sub ikPc ikPa) = ⟨1, 0, 0⟩ := by
        have : V3.sub ikPc ikPa = ⟨2, 0, 0⟩ := by norm_num [V3.sub, ikPa, ikPc]
        rw [this, normal_xAxis 2 (by norm_num)]
      have hnt : V3.normal (V3.sub ⟨-1, 0, 0⟩ ikPa) = ⟨-1, 0, 0⟩ := by
        rw [hsub, normal_negX]
      have hdot : V3.dot (⟨1, 0, 0⟩ : V3) ⟨-1, 0, 0⟩ = -1 := by
        norm_num [V3.dot]
      have hclamp : clamp (-1 : ℝ) (-1) 1 = -1 := by
        unfold clamp
        norm_num
      rw [ikAcAt0, hna, hnt, hdot, hclamp, Real.arccos_neg_one]
    rw [ikR2, hang, hax]
    have : Real.cos (Real.pi / 2) = 0 := Real.cos_pi_div_two
    ext <;> simp [quatAxisAngle, this]
  have hfst : (twoBoneIk ikPa ikPb ikPc (ikBendDir ikPa ikPb ikPc) ⟨-1, 0, 0⟩
      ⟨0, 1, 0⟩ 0 ⟨0, 0, 0, 1⟩ ⟨0, 0, 0, 1⟩).1 = ⟨0, 0, 0, 0⟩ := by
    show Quat.mul _ (Quat.mul (Quat.mul _ (ikR2 ikPa ikPc ⟨-1, 0, 0⟩)) _)
        = ⟨0, 0, 0, 0⟩
    rw [hr2zero, mul_zeroQuat, Quat.mul_zero_left, mul_zeroQuat]
  refine ⟨?_, ?_, ?_, ?_, ik_lab_concrete, ?_⟩
  · rw [hlt]
    norm_num [ikEps]
  · rw [hlt, ik_lab_concrete, ik_lcb_concrete, ikEps]
    linarith
  · rw [ikMidJoint, rotateBy_one]
    norm_num [V3.add, ikPa, ikPb, ikPo]
  · rw [hfst, ikMidJoint, rotateBy_zeroQuat]
    have : V3.sub (V3.add ikPa ⟨0, 0, 0⟩) ikPa = ⟨0, 0, 0⟩ := by
      norm_num [V3.add, V3.sub, ikPa]
    rw [this]
    simp [V3.length, V3.dot]
  · linarith

/-- C3 witness: the concrete chain with target `(0,2,0)` and pole vector
`(-1,0,0)` satisfies every hypothesis of the amended theorem. -/
theorem twoBoneIk_rigid_witness :
    ikEps < V3.length (V3.sub ⟨0, 2, 0⟩ ikPa) ∧
    V3.length (V3.sub
      (ikMidJoint ikPa ikPo
        (twoBoneIk ikPa ikPb ikPc (ikBendDir ikPa ikPb ikPc) ⟨0, 2, 0⟩
          ⟨-1, 0, 0⟩ 0 ⟨0, 0, 0, 1⟩ ⟨0, 0, 0, 1⟩).1) ikPa)
      = ikLab ikPa ikPb := by
  have h14 := sqrt_two_gt
  have hsub : V3.sub (⟨0, 2, 0⟩ : V3) ikPa = ⟨0, 2, 0⟩ := by
    norm_num [V3.sub, ikPa]
  have hlt : V3.length (V3.sub (⟨0, 2, 0⟩ : V3) ikPa) = 2 := by
    rw [hsub]
    have : V3.dot (⟨0, 2, 0⟩ : V3) ⟨0, 2, 0⟩ = 2 * 2 := by norm_num [V3.dot]
    rw [V3.length, this, Real.sqrt_mul_self (by norm_num)]
  have ht1 : ikEps < V3.length (V3.sub ⟨0, 2, 0⟩ ikPa) := by
    rw [hlt]
    norm_num [ikEps]
  have haxis1 : V3.cross (V3.sub ikPc ikPa) (V3.sub ⟨0, 2, 0⟩ ikPa)
      ≠ ⟨0, 0, 0⟩ := by
    have hcr : V3.cross (V3.sub ikPc ikPa) (V3.sub ⟨0, 2, 0⟩ ikPa)
        = ⟨0, 0, 4⟩ := by
      norm_num [V3.cross, V3.sub, ikPa, ikPc]
    rw [hcr]
    intro h
    have := congrArg V3.z h
    norm_num at this
  have haxis1n : ikAxis1 ikPa ikPc ⟨0, 2, 0⟩ = ⟨0, 0, 1⟩ := by
    have hcr : V3.cross (V3.sub ikPc ikPa) (V3.sub ⟨0, 2, 0⟩ ikPa)
        = ⟨0, 0, 4⟩ := by
      norm_num [V3.cross, V3.sub, ikPa, ikPc]
    rw [ikAxis1, hcr, normal_zAxis 4 (by norm_num)]
  have hn2 : ikN2 ikPa ⟨0, 2, 0⟩ ⟨-1, 0, 0⟩ = ⟨0, 0, 1⟩ := by
    have hcr : V3.cross (V3.sub ⟨0, 2, 0⟩ ikPa) (V3.sub ⟨-1, 0, 0⟩ ikPa)
        = ⟨0, 0, 2⟩ := by
      norm_num [V3.cross, V3.sub, ikPa]
    rw [ikN2, hcr, normal_zAxis 2 (by norm_num)]
  have hpole : V3.cross (ikN1 ikPa ikPb ikPc (ikBendDir ikPa ikPb ikPc) ⟨0, 2, 0⟩)
      (ikN2 ikPa ⟨0, 2, 0⟩ ⟨-1, 0, 0⟩) ≠ ⟨0, 0, 0⟩
      ∨ 1 ≤ V3.dot
        (V3.normal (ikN1 ikPa ikPb ikPc (ikBendDir ikPa ikPb ikPc) ⟨0, 2, 0⟩))
        (V3.normal (ikN2 ikPa ⟨0, 2, 0⟩ ⟨-1, 0, 0⟩)) := by
    right
    rw [ikN1_concrete _ haxis1n, hn2, normal_zAxis 1 (by norm_num)]
    norm_num [V3.dot]
  have hca : V3.sub ikPc ikPa ≠ ⟨0, 0, 0⟩ := by
    intro h
    have := congrArg V3.x h
    norm_num [V3.sub, ikPa, ikPc] at this
  have hperp : ikBendPerp ikPa ikPb ikPc ≠ ⟨0, 0, 0⟩ := by
    rw [ik_bendPerp_concrete]
    intro h
    have := congrArg V3.y h
    norm_num at this
  have ha_gr : Quat.normSq ⟨0, 0, 0, 1⟩ = 1 := by norm_num [Quat.normSq]
  have hb : ikPb = ikMidJoint ikPa ikPo ⟨0, 0, 0, 1⟩ := by
    rw [ikMidJoint, rotateBy_one]
    norm_num [V3.add, ikPa, ikPb, ikPo]
  have ht2 : V3.length (V3.sub ⟨0, 2, 0⟩ ikPa)
      < ikLab ikPa ikPb + ikLcb ikPb ikPc - ikEps := by
    rw [hlt, ik_lab_concrete, ik_lcb_concrete, ikEps]
    linarith
  exact ⟨ht1,
    (twoBoneIk_rigid ikPa ikPb ikPc ⟨0, 2, 0⟩ ⟨-1, 0, 0⟩ ikPo 0
      ⟨0, 0, 0, 1⟩ ⟨0, 0, 0, 1⟩ hca hperp ha_gr hb ht1 ht2 haxis1 hpole).1⟩

/-- C4 (amended): for a valid chain, any target — in particular one at
distance at most `eps` from the root or at or beyond full extension — gives
a clamped target distance inside `[eps, lab + lcb - eps]` and every arccos
argument inside `[-1, 1]` (the law-of-cosines computations stay in-domain);
when additionally the re-aim axis is nonzero and the pole-plane alignment
is not antipodal, both output joint rotations are unit quaternions. -/
theorem twoBoneIk_degenerate_guard (a b c t pv : V3) (twist : ℝ)
    (a_gr b_gr : Quat)
    (hca : V3.sub c a ≠ ⟨0, 0, 0⟩)
    (hperp : ikBendPerp a b c ≠ ⟨0, 0, 0⟩)
    (hlen : 2 * ikEps ≤ ikLab a b + ikLcb b c)
    (htdeg : V3.length (V3.sub t a) ≤ ikEps
      ∨ ikLab a b + ikLcb b c ≤ V3.length (V3.sub t a))
    (ha_gr : Quat.normSq a_gr = 1) (hb_gr : Quat.normSq b_gr = 1)
    (haxis1 : V3.cross (V3.sub c a) (V3.sub t a) ≠ ⟨0, 0, 0⟩)
    (hpole : V3.cross (ikN1 a b c (ikBendDir a b c) t) (ikN2 a t pv) ≠ ⟨0, 0, 0⟩
      ∨ 1 ≤ V3.dot (V3.normal (ikN1 a b c (ikBendDir a b c) t))
          (V3.normal (ikN2 a t pv))) :
    ikEps ≤ ikLat a b c t ∧
    ikLat a b c t ≤ ikLab a b + ikLcb b c - ikEps ∧
    (∀ x : ℝ, -1 ≤ clamp x (-1) 1 ∧ clamp x (-1) 1 ≤ 1) ∧
    Quat.normSq ((twoBoneIk a b c (ikBendDir a b c) t pv twist a_gr b_gr).1) = 1 ∧
    Quat.normSq ((twoBoneIk a b c (ikBendDir a b c) t pv twist a_gr b_gr).2) = 1 := by
  have hclamp := clamp_mem (V3.length (V3.sub t a)) ikEps
    (ikLab a b + ikLcb b c - ikEps) (by linarith)
  have hcorr := normSq_ikCorrection a b c t pv twist hca hperp haxis1 hpole
  have hr1 : Quat.normSq (ikR1 a b c (ikBendDir a b c) t) = 1 :=
    normSq_quatAxisAngle_unit _ _ (ikAxis0_unit a b c hca hperp)
  have hfst : (twoBoneIk a b c (ikBendDir a b c) t pv twist a_gr b_gr).1
      = Quat.mul a_gr
        (Quat.mul (Quat.mul (ikR0 a b c (ikBendDir a b c) t) (ikR2 a c t))
          (ikR3 a b c (ikBendDir a b c) t pv twist)) := rfl
  have hsnd : (twoBoneIk a b c (ikBendDir a b c) t pv twist a_gr b_gr).2
      = Quat.mul (Quat.mul b_gr (ikR1 a b c (ikBendDir a b c) t))
        (Quat.mul (Quat.mul (ikR0 a b c (ikBendDir a b c) t) (ikR2 a c t))
          (ikR3 a b c (ikBendDir a b c) t pv twist)) := rfl
  refine ⟨?_, ?_, clamp_abs_le_one, ?_, ?_⟩
  · rw [ikLat]
    exact hclamp.1
  · rw [ikLat]
    exact hclamp.2
  · rw [hfst, Quat.normSq_mul, ha_gr, one_mul]
    exact hcorr
  · rw [hsnd, Quat.normSq_mul, Quat.normSq_mul, hb_gr, hr1, hcorr]
    norm_num

/-- C4: the claim as frozen includes a target exactly coincident with the
root (`t = a`).  There the target direction `(t-a).normal()` normalizes the
zero vector (0/0, NaN in the C++ floats before any clamp applies) and in
the exact model the re-aim and pole rotations degenerate to non-unit
quaternions: the corrected root rotation has squared norm 1/4, so the
output is not a finite well-defined rotation. -/
theorem twoBoneIk_degenerate_counterexample :
    V3.length (V3.sub ⟨0, 0, 0⟩ ikPa) = 0 ∧
    Quat.normSq ((twoBoneIk ikPa ikPb ikPc (ikBendDir ikPa ikPb ikPc)
      ⟨0, 0, 0⟩ ⟨-1, 0, 0⟩ 0 ⟨0, 0, 0, 1⟩ ⟨0, 0, 0, 1⟩).1) = 1 / 4 := by
  have hsub : V3.sub (⟨0, 0, 0⟩ : V3) ikPa = ⟨0, 0, 0⟩ := by
    norm_num [V3.sub, ikPa]
  have hlen0 : V3.length (V3.sub (⟨0, 0, 0⟩ : V3) ikPa) = 0 := by
    rw [hsub]
    simp [V3.length, V3.dot]
  have hdot00 : V3.dot (⟨0, 0, 0⟩ : V3) ⟨0, 0, 0⟩ = 0 := by norm_num [V3.dot]
  have hcos4 : Real.cos (Real.pi / 2 / 2) ^ 2 = 1 / 2 := by
    rw [show Real.pi / 2 / 2 = Real.pi / 4 by ring, Real.cos_pi_div_four,
      div_pow, Real.sq_sqrt (by norm_num : (0:ℝ) ≤ 2)]
    norm_num
  have hclamp0 : clamp (0 : ℝ) (-1) 1 = 0 := by
    unfold clamp
    norm_num
  have hr0 : Quat.normSq
      (ikR0 ikPa ikPb ikPc (ikBendDir ikPa ikPb ikPc) ⟨0, 0, 0⟩) = 1 := by
    rw [ikR0, ik_axis0_concrete]
    exact normSq_quatAxisAngle_unit _ _ (by norm_num [V3.dot])
  have hr2 : Quat.normSq (ikR2 ikPa ikPc ⟨0, 0, 0⟩) = 1 / 2 := by
    have hax : ikAxis1 ikPa ikPc ⟨0, 0, 0⟩ = ⟨0, 0, 0⟩ := by
      have hcr : V3.cross (V3.sub ikPc ikPa) (V3.sub ⟨0, 0, 0⟩ ikPa)
          = ⟨0, 0, 0⟩ := by
        norm_num [V3.cross, V3.sub, ikPa, ikPc]
      rw [ikAxis1, hcr, normal_zero_V3]
    have hang : ikAcAt0 ikPa ikPc ⟨0, 0, 0⟩ = Real.pi / 2 := by
      have hna : V3.normal (V3.sub ikPc ikPa) = ⟨1, 0, 0⟩ := by
        have : V3.sub ikPc ikPa = ⟨2, 0, 0⟩ := by norm_num [V3.sub, ikPa, ikPc]
        rw [this, normal_xAxis 2 (by norm_num)]
      have hnt : V3.normal (V3.sub ⟨0, 0, 0⟩ ikPa) = ⟨0, 0, 0⟩ := by
        rw [hsub, normal_zero_V3]
      have hdot : V3.dot (⟨1, 0, 0⟩ : V3) ⟨0, 0, 0⟩ = 0 := by norm_num [V3.dot]
      rw [ikAcAt0, hna, hnt, hdot, hclamp0, Real.arccos_zero]
    rw [ikR2, hang, hax, normSq_quatAxisAngle, hdot00, mul_zero, zero_add]
    exact hcos4
  have hn2 : ikN2 ikPa ⟨0, 0, 0⟩ ⟨-1, 0, 0⟩ = ⟨0, 0, 0⟩ := by
    have hcr : V3.cross (V3.sub ⟨0, 0, 0⟩ ikPa) (V3.sub ⟨-1, 0, 0⟩ ikPa)
        = ⟨0, 0, 0⟩ := by
      norm_num [V3.cross, V3.sub, ikPa]
    rw [ikN2, hcr, normal_zero_V3]
  have hr3b : Quat.normSq (ikR3base ikPa ikPb ikPc (ikBendDir ikPa ikPb ikPc)
      ⟨0, 0, 0⟩ ⟨-1, 0, 0⟩) = 1 / 2 := by
    rw [ikR3base, hn2, rotateTo, normal_zero_V3]
    have hdot0 : V3.dot (V3.normal
        (ikN1 ikPa ikPb ikPc (ikBendDir ikPa ikPb ikPc) ⟨0, 0, 0⟩))
        (⟨0, 0, 0⟩ : V3) = 0 := by
      simp [V3.dot]
    have hcr0 : V3.cross (ikN1 ikPa ikPb ikPc (ikBendDir ikPa ikPb ikPc)
        ⟨0, 0, 0⟩) ⟨0, 0, 0⟩ = ⟨0, 0, 0⟩ := by
      ext <;> simp [V3.cross]
    rw [hdot0, hcr0, normal_zero_V3, hclamp0, Real.arccos_zero,
      normSq_quatAxisAngle, hdot00, mul_zero, zero_add]
    exact hcos4
  have hr3 : Quat.normSq (ikR3 ikPa ikPb ikPc (ikBendDir ikPa ikPb ikPc)
      ⟨0, 0, 0⟩ ⟨-1, 0, 0⟩ 0) = 1 / 2 := by
    rw [ikR3, Quat.normSq_mul, hr3b, normSq_quatAxisAngle, dot_axisAngleAxis,
      mul_one, Real.sin_sq_add_cos_sq, mul_one]
  have hfst : (twoBoneIk ikPa ikPb ikPc (ikBendDir ikPa ikPb ikPc) ⟨0, 0, 0⟩
      ⟨-1, 0, 0⟩ 0 ⟨0, 0, 0, 1⟩ ⟨0, 0, 0, 1⟩).1
      = Quat.mul ⟨0, 0, 0, 1⟩
        (Quat.mul
          (Quat.mul (ikR0 ikPa ikPb ikPc (ikBendDir ikPa ikPb ikPc) ⟨0, 0, 0⟩)
            (ikR2 ikPa ikPc ⟨0, 0, 0⟩))
          (ikR3 ikPa ikPb ikPc (ikBendDir ikPa ikPb ikPc) ⟨0, 0, 0⟩
            ⟨-1, 0, 0⟩ 0)) := rfl
  refine ⟨hlen0, ?_⟩
  rw [hfst, Quat.normSq_mul, Quat.normSq_mul, Quat.normSq_mul, hr0, hr2, hr3]
  norm_num [Quat.normSq]

/-- C4 witness: the concrete chain with the fully-extended target `(0,4,0)`
satisfies every hypothesis of the amended theorem. -/
theorem twoBoneIk_degenerate_guard_witness :
    (V3.length (V3.sub ⟨0, 4, 0⟩ ikPa) ≤ ikEps
      ∨ ikLab ikPa ikPb + ikLcb ikPb ikPc ≤ V3.length (V3.sub ⟨0, 4, 0⟩ ikPa)) ∧
    ikEps ≤ ikLat ikPa ikPb ikPc ⟨0, 4, 0⟩ ∧
    Quat.normSq ((twoBoneIk ikPa ikPb ikPc (ikBendDir ikPa ikPb ikPc)
      ⟨0, 4, 0⟩ ⟨-1, 0, 0⟩ 0 ⟨0, 0, 0, 1⟩ ⟨0, 0, 0, 1⟩).1) = 1 := by
  have h15 := sqrt_two_lt
  have h14 := sqrt_two_gt
  have hsub : V3.sub (⟨0, 4, 0⟩ : V3) ikPa = ⟨0, 4, 0⟩ := by
    norm_num [V3.sub, ikPa]
  have hlt : V3.length (V3.sub (⟨0, 4, 0⟩ : V3) ikPa) = 4 := by
    rw [hsub]
    have : V3.dot (⟨0, 4, 0⟩ : V3) ⟨0, 4, 0⟩ = 4 * 4 := by norm_num [V3.dot]
    rw [V3.length, this, Real.sqrt_mul_self (by norm_num)]
  have htdeg : V3.length (V3.sub ⟨0, 4, 0⟩ ikPa) ≤ ikEps
      ∨ ikLab ikPa ikPb + ikLcb ikPb ikPc
        ≤ V3.length (V3.sub ⟨0, 4, 0⟩ ikPa) := by
    right
    rw [hlt, ik_lab_concrete, ik_lcb_concrete]
    linarith
  have hca : V3.sub ikPc ikPa ≠ ⟨0, 0, 0⟩ := by
    intro h
    have := congrArg V3.x h
    norm_num [V3.sub, ikPa, ikPc] at this
  have hperp : ikBendPerp ikPa ikPb ikPc ≠ ⟨0, 0, 0⟩ := by
    rw [ik_bendPerp_concrete]
    intro h
    have := congrArg V3.y h
    norm_num at this
  have hlen : 2 * ikEps ≤ ikLab ikPa ikPb + ikLcb ikPb ikPc := by
    rw [ik_lab_concrete, ik_lcb_concrete, ikEps]
    linarith
  have ha_gr : Quat.normSq ⟨0, 0, 0, 1⟩ = 1 := by norm_num [Quat.normSq]
  have haxis1 : V3.cross (V3.sub ikPc ikPa) (V3.sub ⟨0, 4, 0⟩ ikPa)
      ≠ ⟨0, 0, 0⟩ := by
    have hcr : V3.cross (V3.sub ikPc ikPa) (V3.sub ⟨0, 4, 0⟩ ikPa)
        = ⟨0, 0, 8⟩ := by
      norm_num [V3.cross, V3.sub, ikPa, ikPc]
    rw [hcr]
    intro h
    have := congrArg V3.z h
    norm_num at this
  have haxis1n : ikAxis1 ikPa ikPc ⟨0, 4, 0⟩ = ⟨0, 0, 1⟩ := by
    have hcr : V3.cross (V3.sub ikPc ikPa) (V3.sub ⟨0, 4, 0⟩ ikPa)
        = ⟨0, 0, 8⟩ := by
      norm_num [V3.cross, V3.sub, ikPa, ikPc]
    rw [ikAxis1, hcr, normal_zAxis 8 (by norm_num)]
  have hn2 : ikN2 ikPa ⟨0, 4, 0⟩ ⟨-1, 0, 0⟩ = ⟨0, 0, 1⟩ := by
    have hcr : V3.cross (V3.sub ⟨0, 4, 0⟩ ikPa) (V3.sub ⟨-1, 0, 0⟩ ikPa)
        = ⟨0, 0, 4⟩ := by
      norm_num [V3.cross, V3.sub, ikPa]
    rw [ikN2, hcr, normal_zAxis 4 (by norm_num)]
  have hpole : V3.cross
      (ikN1 ikPa ikPb ikPc (ikBendDir ikPa ikPb ikPc) ⟨0, 4, 0⟩)
      (ikN2 ikPa ⟨0, 4, 0⟩ ⟨-1, 0, 0⟩) ≠ ⟨0, 0, 0⟩
      ∨ 1 ≤ V3.dot
        (V3.normal (ikN1 ikPa ikPb ikPc (ikBendDir ikPa ikPb ikPc) ⟨0, 4, 0⟩))
        (V3.normal (ikN2 ikPa ⟨0, 4, 0⟩ ⟨-1, 0, 0⟩)) := by
    right
    rw [ikN1_concrete _ haxis1n, hn2, normal_zAxis 1 (by norm_num)]
    norm_num [V3.dot]
  have h := twoBoneIk_degenerate_guard ikPa ikPb ikPc ⟨0, 4, 0⟩ ⟨-1, 0, 0⟩ 0
    ⟨0, 0, 0, 1⟩ ⟨0, 0, 0, 1⟩ hca hperp hlen htdeg ha_gr ha_gr haxis1 hpole
  exact ⟨htdeg, h.1, h.2.2.2.1⟩

end CMT
